import Mathlib

/-!
# Verification of the `synthesizer/sample.py` audio engine

Shallow embedding of the sample-manipulation core of the repository
(`src/synthesizer/sample.py`): the `Sample` buffer type and its in-place
transforms, the `audioop` PCM kernel operations they rely on, the playback
worker's dequeue loop, and the `LevelMeter`.

Modelling conventions:
* Python `bytes` buffers are `List ℕ` whose entries represent bytes
  (always `< 256` for buffers produced by the code itself).
* Python floats are modelled as exact rationals `ℚ`; `int(x)` is
  truncation toward zero (`pytrunc`).  The dB computations of
  `LevelMeter`, which use `math.log`, are modelled over `ℝ`.
* Python exceptions (`assert`, `audioop.error`, `KeyError`,
  `OverflowError`) are modelled with `Except PyErr`.
* The host platform is little-endian (`sys.byteorder == "little"`), so
  the `audioop.byteswap` normalization branches are never taken; they are
  still modelled, behind the `sysByteorder` constant.
* Mutating methods take the current sample state and return the new one;
  an error leaves the original state unreferenced, exactly like a Python
  assertion firing before any field assignment.
-/

/-- Exceptions raised by the code: `assert not self.__locked` (the spec's
LockedError), the compatibility asserts (MismatchError), other asserts,
`audioop.error`, `array` append overflow, dict `KeyError` from
`samplewidths_to_arraycode`, and `ValueError`. -/
inductive PyErr where
  | lockedError
  | mismatchError
  | assertError
  | audioopError
  | overflowError
  | keyError
  | valueError
deriving DecidableEq, Repr

deriving instance DecidableEq for Except

/-- Python `int(x)` on a float: truncation toward zero. -/
def pytrunc (q : ℚ) : ℤ := if 0 ≤ q then ⌊q⌋ else ⌈q⌉

/-- Resolve a (possibly negative, possibly out-of-range) Python slice
index against a buffer of length `len`, Python-style. -/
def pyIndex (len : ℕ) (i : ℤ) : ℕ :=
  if i < 0 then ((len : ℤ) + i).toNat else min i.toNat len

/-- Python `l[:i]`. -/
def pyTake (l : List α) (i : ℤ) : List α := l.take (pyIndex l.length i)

/-- Python `l[i:]`. -/
def pyDrop (l : List α) (i : ℤ) : List α := l.drop (pyIndex l.length i)

/-- Python `l[a:b]`. -/
def pySlice (l : List α) (a b : ℤ) : List α :=
  (l.take (pyIndex l.length b)).drop (pyIndex l.length a)

/-! ## Little-endian signed PCM codec

`audioop` interprets fragments as arrays of signed integers of the given
width in the machine byte order (little-endian here). -/

/-- Unsigned little-endian value of a byte list. -/
def decodeU : List ℕ → ℕ
  | [] => 0
  | b :: bs => b + 256 * decodeU bs

/-- `w` little-endian bytes of the natural number `m` (mod `256^w`). -/
def encodeU : ℕ → ℕ → List ℕ
  | 0, _ => []
  | w + 1, m => m % 256 :: encodeU w (m / 256)

/-- Signed sample value of a `w`-byte little-endian group. -/
def decodeSample (w : ℕ) (bs : List ℕ) : ℤ :=
  let u := decodeU bs
  if 2 ^ (8 * w - 1) ≤ u then (u : ℤ) - 2 ^ (8 * w) else (u : ℤ)

/-- `w` little-endian bytes of the signed sample value `v`. -/
def encodeSample (w : ℕ) (v : ℤ) : List ℕ :=
  encodeU w ((v % ((2 : ℤ) ^ (8 * w))).toNat)

/-- Decode a whole fragment: `n` consecutive `w`-byte samples. -/
def sampleValuesGo (w : ℕ) : ℕ → List ℕ → List ℤ
  | 0, _ => []
  | n + 1, bs => decodeSample w (bs.take w) :: sampleValuesGo w n (bs.drop w)

/-- All sample values of a fragment; `none` when the fragment is not a
whole number of `w`-byte samples (the `audioop` error condition). -/
def sampleValues (w : ℕ) (bs : List ℕ) : Option (List ℤ) :=
  if 0 < w ∧ w ∣ bs.length then some (sampleValuesGo w (bs.length / w) bs) else none

/-- Re-encode a list of sample values into a byte fragment. -/
def bytesOfValues (w : ℕ) : List ℤ → List ℕ
  | [] => []
  | v :: vs => encodeSample w v ++ bytesOfValues w vs

/-! ## `audioop` kernel operations -/

/-- Largest representable sample value at width `w` (`audioop`'s maxval). -/
def maxval (w : ℕ) : ℤ := 2 ^ (8 * w - 1) - 1

/-- Smallest representable sample value at width `w` (`audioop`'s minval). -/
def minval (w : ℕ) : ℤ := -(2 ^ (8 * w - 1))

/-- `audioop`'s `fbound`: clamp into the representable range, then round
toward minus infinity. -/
def fbound (w : ℕ) (v : ℚ) : ℤ :=
  if v > (maxval w : ℚ) then maxval w
  else if v < (minval w : ℚ) + 1 then minval w
  else ⌊v⌋

/-- Maximum absolute value of a list of sample values (0 when empty). -/
def listAbsMax (vs : List ℤ) : ℤ := vs.foldr (fun v m => max |v| m) 0

/-- `audioop.max(fragment, width)`: maximum absolute sample value. -/
def audioop_max (bs : List ℕ) (w : ℕ) : Except PyErr ℤ :=
  match sampleValues w bs with
  | some vs => .ok (listAbsMax vs)
  | none => .error .audioopError

/-- `audioop.rms(fragment, width)`.  CPython computes
`(int)sqrt((double)sum_of_squares / len)`; the floating square root is
modelled with the integer square root (they agree on the silent fragments
this development evaluates it on). -/
def audioop_rms (bs : List ℕ) (w : ℕ) : Except PyErr ℤ :=
  match sampleValues w bs with
  | some vs => .ok ((Nat.sqrt ((vs.foldr (fun v a => (v * v).toNat + a) 0) / vs.length) : ℤ))
  | none => .error .audioopError

/-- `audioop.mul(fragment, width, factor)`: every sample multiplied by a
float factor and clamped through `fbound`. -/
def audioop_mul (bs : List ℕ) (w : ℕ) (factor : ℚ) : Except PyErr (List ℕ) :=
  match sampleValues w bs with
  | some vs => .ok (bytesOfValues w (vs.map fun (v : ℤ) => fbound w ((v : ℚ) * factor)))
  | none => .error .audioopError

/-- `audioop.add(fragment1, fragment2, width)`: elementwise sum through
`fbound`; both fragments must have the same length. -/
def audioop_add (b1 b2 : List ℕ) (w : ℕ) : Except PyErr (List ℕ) :=
  if b1.length ≠ b2.length then .error .audioopError
  else
    match sampleValues w b1, sampleValues w b2 with
    | some v1, some v2 =>
        .ok (bytesOfValues w (List.zipWith (fun (a b : ℤ) => fbound w ((a : ℚ) + (b : ℚ))) v1 v2))
    | _, _ => .error .audioopError

/-- Group a flat list of sample values into frames of `nch` channels. -/
def framesOfValuesGo (nch : ℕ) : ℕ → List ℤ → List (List ℤ)
  | 0, _ => []
  | n + 1, vs => vs.take nch :: framesOfValuesGo nch n (vs.drop nch)

/-- `audioop.tomono(fragment, width, lfactor, rfactor)`. -/
def audioop_tomono (bs : List ℕ) (w : ℕ) (lf rf : ℚ) : Except PyErr (List ℕ) :=
  match sampleValues w bs with
  | some vs =>
      if 2 ∣ vs.length then
        .ok (bytesOfValues w ((framesOfValuesGo 2 (vs.length / 2) vs).map fun (fr : List ℤ) =>
          fbound w ((fr.headD 0 : ℚ) * lf + ((fr.getD 1 0 : ℤ) : ℚ) * rf)))
      else .error .audioopError
  | none => .error .audioopError

/-- `audioop.tostereo(fragment, width, lfactor, rfactor)`. -/
def audioop_tostereo (bs : List ℕ) (w : ℕ) (lf rf : ℚ) : Except PyErr (List ℕ) :=
  match sampleValues w bs with
  | some vs =>
      .ok (bytesOfValues w (vs.foldr (fun (v : ℤ) acc =>
        fbound w ((v : ℚ) * lf) :: fbound w ((v : ℚ) * rf) :: acc) []))
  | none => .error .audioopError

/-- `audioop.lin2lin(fragment, width, newwidth)`: width conversion via a
32-bit intermediate; equivalently multiply by `2^(8*w2)` and floor-divide
by `2^(8*w)` (exact on widening, arithmetic shift on narrowing). -/
def audioop_lin2lin (bs : List ℕ) (w w2 : ℕ) : Except PyErr (List ℕ) :=
  match sampleValues w bs with
  | some vs =>
      .ok (bytesOfValues w2 (vs.map fun (v : ℤ) => Int.fdiv (v * 2 ^ (8 * w2)) (2 ^ (8 * w))))
  | none => .error .audioopError

/-- Reverse the bytes inside each `w`-byte group
(`audioop.byteswap(fragment, width)`). -/
def byteswapGo (w : ℕ) : ℕ → List ℕ → List ℕ
  | 0, _ => []
  | n + 1, bs => (bs.take w).reverse ++ byteswapGo w n (bs.drop w)

/-- `audioop.byteswap(fragment, width)`. -/
def audioop_byteswap (bs : List ℕ) (w : ℕ) : List ℕ :=
  byteswapGo w (bs.length / w) bs

/-- `audioop.getsample(fragment, width, index)`; every call site in the
modelled code keeps the index strictly below the fragment's sample count,
so the in-range check is omitted. -/
def getsample (bs : List ℕ) (w : ℕ) (i : ℕ) : ℤ :=
  decodeSample w ((bs.drop (i * w)).take w)

/-- `sys.byteorder` of the modelled host platform. -/
def sysByteorder : String := "little"

/-! ## The `Sample` class -/

/-- The state of a `Sample` instance: raw frame bytes, sample width in
bytes, sample rate in Hz, channel count, and the one-way lock flag.  The
`__filename` provenance field is not modelled (no claim mentions it). -/
structure Sample where
  frames : List ℕ
  samplewidth : ℕ
  samplerate : ℕ
  nchannels : ℕ
  locked : Bool
deriving DecidableEq, Repr

namespace Sample

/-- Class attribute defaults: `norm_samplerate`, `norm_nchannels`,
`norm_samplewidth`. -/
def norm_samplerate : ℕ := 44100

def norm_nchannels : ℕ := 2

def norm_samplewidth : ℕ := 2

/-- `Sample()`: the empty-sample branch of `__init__`. -/
def init : Sample :=
  { frames := [], samplewidth := norm_samplewidth, samplerate := norm_samplerate,
    nchannels := norm_nchannels, locked := false }

/-- `Sample.from_raw_frames(frames, samplewidth, samplerate, numchannels)`:
asserts on channel count, width and rate, but performs no check on the
byte length of `frames`. -/
def from_raw_frames (frames : List ℕ) (samplewidth samplerate numchannels : ℕ) :
    Except PyErr Sample :=
  if ¬ (1 ≤ numchannels ∧ numchannels ≤ 2) then .error .assertError
  else if ¬ (2 ≤ samplewidth ∧ samplewidth ≤ 4) then .error .assertError
  else if ¬ (1 < samplerate) then .error .assertError
  else .ok { frames := frames, samplewidth := samplewidth, samplerate := samplerate,
             nchannels := numchannels, locked := false }

/-- The `samplerate` property setter: `assert rate > 0` and store
`int(rate)`.  Note: unlike the transform methods it does NOT check the
`locked` flag. -/
def setSamplerate (s : Sample) (rate : ℚ) : Except PyErr Sample :=
  if ¬ (rate > 0) then .error .assertError
  else .ok { s with samplerate := (pytrunc rate).toNat }

/-- `duration` property: `len(frames) / samplerate / samplewidth / nchannels`. -/
def duration (s : Sample) : ℚ :=
  (s.frames.length : ℚ) / (s.samplerate : ℚ) / (s.samplewidth : ℚ) / (s.nchannels : ℚ)

/-- `__len__`: the number of frames, `len(frames) // samplewidth // nchannels`. -/
def pyLen (s : Sample) : ℕ := s.frames.length / s.samplewidth / s.nchannels

/-- The dict `samplewidths_to_arraycode` (keys 1, 2 and 4 only; on the
modelled platform `array('i').itemsize == 4` so width 4 maps to 'i').
Width 3 is absent: looking it up raises `KeyError`. -/
def samplewidths_to_arraycode : ℕ → Option Char
  | 1 => some 'b'
  | 2 => some 'h'
  | 4 => some 'i'
  | _ => none

/-- `copy()`: a fresh unlocked sample with the same data
(via `copy_from` on a newly constructed instance). -/
def copy (s : Sample) : Sample :=
  { frames := s.frames, samplewidth := s.samplewidth, samplerate := s.samplerate,
    nchannels := s.nchannels, locked := false }

/-- `lock()`. -/
def lock (s : Sample) : Sample := { s with locked := true }

/-- `frame_idx(seconds)`: `nchannels * samplewidth * int(samplerate * seconds)`. -/
def frame_idx (s : Sample) (seconds : ℚ) : ℤ :=
  (s.nchannels : ℤ) * (s.samplewidth : ℤ) * pytrunc ((s.samplerate : ℚ) * seconds)

/-- `amplify(factor)`. -/
def amplify (s : Sample) (factor : ℚ) : Except PyErr Sample :=
  if s.locked then .error .lockedError
  else (audioop_mul s.frames s.samplewidth factor).map fun bs => { s with frames := bs }

/-- `amplify_max()`. -/
def amplify_max (s : Sample) : Except PyErr Sample :=
  if s.locked then .error .lockedError
  else
    (audioop_max s.frames s.samplewidth).bind fun max_amp =>
      let max_target : ℤ := 2 ^ (8 * s.samplewidth - 1) - 2
      if max_amp > 0 then
        (audioop_mul s.frames s.samplewidth ((max_target : ℚ) / (max_amp : ℚ))).map
          fun bs => { s with frames := bs }
      else .ok s

/-- `at_volume(volume)`: amplify a copy, leaving the original untouched;
usable on locked samples. -/
def at_volume (s : Sample) (volume : ℚ) : Except PyErr Sample :=
  (s.copy).amplify volume

/-- `clip(start_seconds, end_seconds)`. -/
def clip (s : Sample) (start_seconds end_seconds : ℚ) : Except PyErr Sample :=
  if s.locked then .error .lockedError
  else if ¬ (end_seconds > start_seconds) then .error .assertError
  else .ok { s with frames := pySlice s.frames (s.frame_idx start_seconds) (s.frame_idx end_seconds) }

/-- `split(seconds)`: keep the first part in `self`, return the chopped
tail.  Result is `(new self, chopped)`. -/
def split (s : Sample) (seconds : ℚ) : Except PyErr (Sample × Sample) :=
  if s.locked then .error .lockedError
  else
    let e := s.frame_idx seconds
    if e ≠ (s.frames.length : ℤ) then
      .ok ({ s with frames := pyTake s.frames e },
           { s.copy with frames := pyDrop s.frames e })
    else
      (from_raw_frames [] s.samplewidth s.samplerate s.nchannels).map fun empty => (s, empty)

/-- `add_silence(seconds, at_start)`. -/
def add_silence (s : Sample) (seconds : ℚ) (at_start : Bool) : Except PyErr Sample :=
  if s.locked then .error .lockedError
  else
    let required_extra := (s.frame_idx seconds).toNat
    if at_start then .ok { s with frames := List.replicate required_extra 0 ++ s.frames }
    else .ok { s with frames := s.frames ++ List.replicate required_extra 0 }

/-- `join(other)`: append another sample with identical properties. -/
def join (s other : Sample) : Except PyErr Sample :=
  if s.locked then .error .lockedError
  else if ¬ (s.samplewidth = other.samplewidth ∧ s.samplerate = other.samplerate ∧
             s.nchannels = other.nchannels) then .error .mismatchError
  else .ok { s with frames := s.frames ++ other.frames }

/-- The `fadeout` loop: for `i in range(n)`, compute
`1 - (i/numsamples)*decrease`, read the sample, truncate the product and
append to the typed array (which raises `OverflowError` outside the
array's value range). -/
def fadeoutGo (w : ℕ) (chunk : List ℕ) (numsamples decrease : ℚ) :
    ℕ → ℕ → Except PyErr (List ℤ)
  | _, 0 => .ok []
  | i, k + 1 =>
    let amplitude := 1 - ((i : ℚ) / numsamples) * decrease
    let v := pytrunc ((getsample chunk w i : ℚ) * amplitude)
    if v < minval w ∨ maxval w < v then .error .overflowError
    else (fadeoutGo w chunk numsamples decrease (i + 1) k).map fun vs => v :: vs

/-- The `fadein` loop: amplitude `i*increase/numsamples + start_volume`. -/
def fadeinGo (w : ℕ) (chunk : List ℕ) (numsamples increase start_volume : ℚ) :
    ℕ → ℕ → Except PyErr (List ℤ)
  | _, 0 => .ok []
  | i, k + 1 =>
    let amplitude := (i : ℚ) * increase / numsamples + start_volume
    let v := pytrunc ((getsample chunk w i : ℚ) * amplitude)
    if v < minval w ∨ maxval w < v then .error .overflowError
    else (fadeinGo w chunk numsamples increase start_volume (i + 1) k).map fun vs => v :: vs

/-- `fadeout(seconds, target_volume)`. -/
def fadeout (s : Sample) (seconds target_volume : ℚ) : Except PyErr Sample :=
  if s.locked then .error .lockedError
  else match samplewidths_to_arraycode s.samplewidth with
  | none => .error .keyError
  | some _ =>
    let seconds := min seconds s.duration
    let i := s.frame_idx (s.duration - seconds)
    let beginBytes := pyTake s.frames i
    let endBytes := pyDrop s.frames i
    let numsamples : ℚ := (endBytes.length : ℚ) / (s.samplewidth : ℚ)
    let decrease := 1 - target_volume
    (fadeoutGo s.samplewidth endBytes numsamples decrease 0 (pytrunc numsamples).toNat).map
      fun vals =>
        let faded := bytesOfValues s.samplewidth vals
        let faded := if sysByteorder = "big" then audioop_byteswap faded s.samplewidth else faded
        { s with frames := beginBytes ++ faded }

/-- `fadein(seconds, start_volume)`. -/
def fadein (s : Sample) (seconds start_volume : ℚ) : Except PyErr Sample :=
  if s.locked then .error .lockedError
  else match samplewidths_to_arraycode s.samplewidth with
  | none => .error .keyError
  | some _ =>
    let seconds := min seconds s.duration
    let i := s.frame_idx seconds
    let beginBytes := pyTake s.frames i
    let endBytes := pyDrop s.frames i
    let numsamples : ℚ := (beginBytes.length : ℚ) / (s.samplewidth : ℚ)
    let increase := 1 - start_volume
    (fadeinGo s.samplewidth beginBytes numsamples increase start_volume 0
        (pytrunc numsamples).toNat).map
      fun vals =>
        let faded := bytesOfValues s.samplewidth vals
        let faded := if sysByteorder = "big" then audioop_byteswap faded s.samplewidth else faded
        { s with frames := faded ++ endBytes }

/-- `envelope(attack, decay, sustainlevel, release)`: ADSR. -/
def envelope (s : Sample) (attack decay sustainlevel release : ℚ) : Except PyErr Sample :=
  if s.locked then .error .lockedError
  else if ¬ (attack ≥ 0 ∧ decay ≥ 0 ∧ release ≥ 0) then .error .assertError
  else if ¬ (0 ≤ sustainlevel ∧ sustainlevel ≤ 1) then .error .assertError
  else do
    let (a, d) ← s.split attack
    let (d, sus) ← d.split decay
    let sustainStep := if sustainlevel < 1 then sus.amplify sustainlevel else pure sus
    let sus ← sustainStep
    let (sus, r) ← sus.split (sus.duration - release)
    let attackStep := if attack > 0 then a.fadein attack 0 else pure a
    let a ← attackStep
    let decayStep := if decay > 0 then d.fadeout decay sustainlevel else pure d
    let d ← decayStep
    let releaseStep := if release > 0 then r.fadeout release 0 else pure r
    let r ← releaseStep
    let j1 ← a.join d
    let j2 ← j1.join sus
    j2.join r

/-- `mix(other, other_seconds, pad_shortest)`. -/
def mix (s other : Sample) (other_seconds : Option ℚ) (pad_shortest : Bool) :
    Except PyErr Sample :=
  if s.locked then .error .lockedError
  else if ¬ (s.samplewidth = other.samplewidth ∧ s.samplerate = other.samplerate ∧
             s.nchannels = other.nchannels) then .error .mismatchError
  else
    let frames1 := s.frames
    -- `if other_seconds:` — None and 0.0 are both falsy
    let frames2 := match other_seconds with
      | some q => if q = 0 then other.frames else pyTake other.frames (other.frame_idx q)
      | none => other.frames
    let padded :=
      if pad_shortest then
        if frames1.length < frames2.length then
          (frames1 ++ List.replicate (frames2.length - frames1.length) 0, frames2)
        else if frames2.length < frames1.length then
          (frames1, frames2 ++ List.replicate (frames1.length - frames2.length) 0)
        else (frames1, frames2)
      else (frames1, frames2)
    (audioop_add padded.1 padded.2 s.samplewidth).map fun bs => { s with frames := bs }

/-- `_mix_grow_if_needed(start_frame_idx, other_length)`. -/
def mix_grow_if_needed (s : Sample) (start_frame_idx : ℤ) (other_length : ℕ) : Sample :=
  let required_length := start_frame_idx + (other_length : ℤ)
  if required_length > (s.frames.length : ℤ) then
    { s with frames := s.frames ++ List.replicate (required_length - (s.frames.length : ℤ)).toNat 0 }
  else s

/-- `_mix_split_frames(other_frames_length, start_frame_idx)`: grow, then
return `(grown self, pre, to_mix, post)`. -/
def mix_split_frames (s : Sample) (other_frames_length : ℕ) (start_frame_idx : ℤ) :
    Sample × List ℕ × List ℕ × List ℕ :=
  let g := s.mix_grow_if_needed start_frame_idx other_frames_length
  (g, pyTake g.frames start_frame_idx,
      pySlice g.frames start_frame_idx (start_frame_idx + (other_frames_length : ℤ)),
      pyDrop g.frames (start_frame_idx + (other_frames_length : ℤ)))

/-- `_mix_join_frames(pre, mid, post)`. -/
def mix_join_frames (pre mid post : List ℕ) : List ℕ := pre ++ mid ++ post

/-- `mix_at(seconds, other, other_seconds)`: delegates to `mix` when
`seconds == 0.0`. -/
def mix_at (s : Sample) (seconds : ℚ) (other : Sample) (other_seconds : Option ℚ) :
    Except PyErr Sample :=
  if seconds = 0 then s.mix other other_seconds true
  else if s.locked then .error .lockedError
  else if ¬ (s.samplewidth = other.samplewidth ∧ s.samplerate = other.samplerate ∧
             s.nchannels = other.nchannels) then .error .mismatchError
  else
    let start_frame_idx := s.frame_idx seconds
    let other_frames := match other_seconds with
      | some q => if q = 0 then other.frames else pyTake other.frames (other.frame_idx q)
      | none => other.frames
    let sp := s.mix_split_frames other_frames.length start_frame_idx
    (audioop_add sp.2.2.1 other_frames s.samplewidth).map fun mixed =>
      { sp.1 with frames := mix_join_frames sp.2.1 mixed sp.2.2.2 }

/-- The loop body of `echo`: each iteration re-amplifies a copy of the
previous echo and mixes it in at an increasing offset, stopping early
once `echo_amp` drops below one quantization step. -/
def echoLoop (delay decay : ℚ) : ℕ → Sample → Sample → ℚ → ℚ → Except PyErr Sample
  | 0, s, _, _, _ => .ok s
  | n + 1, s, e, len, echo_amp =>
    if echo_amp < 1 / 2 ^ (8 * s.samplewidth - 1) then .ok s
    else do
      let len := len + delay
      let e ← (e.copy).amplify echo_amp
      let s ← s.mix_at len e none
      echoLoop delay decay n s e len (echo_amp * decay)

/-- `echo(length, amount, delay, decay)`. -/
def echo (s : Sample) (length : ℚ) (amount : ℕ) (delay decay : ℚ) : Except PyErr Sample :=
  if s.locked then .error .lockedError
  else if amount > 0 then
    let len := max 0 (s.duration - length)
    let e := { s.copy with frames := pyDrop s.frames (s.frame_idx len) }
    echoLoop delay decay amount s e len decay
  else .ok s

/-- `mono(left_factor, right_factor)`. -/
def mono (s : Sample) (left_factor right_factor : ℚ) : Except PyErr Sample :=
  if s.locked then .error .lockedError
  else if s.nchannels = 1 then .ok s
  else if s.nchannels = 2 then
    (audioop_tomono s.frames s.samplewidth left_factor right_factor).map fun bs =>
      { s with frames := bs, nchannels := 1 }
  else .error .valueError

/-- `left()`. -/
def left (s : Sample) : Except PyErr Sample :=
  if s.locked then .error .lockedError
  else if ¬ (s.nchannels = 2) then .error .assertError
  else s.mono 1 0

/-- `right()`. -/
def right (s : Sample) : Except PyErr Sample :=
  if s.locked then .error .lockedError
  else if ¬ (s.nchannels = 2) then .error .assertError
  else s.mono 0 1

/-- The mono branch of `stereo`: `audioop.tostereo`. -/
def stereoFromMono (s : Sample) (left_factor right_factor : ℚ) : Except PyErr Sample :=
  (audioop_tostereo s.frames s.samplewidth left_factor right_factor).map fun bs =>
    { s with frames := bs, nchannels := 2 }

/-- `stereo_mix(other, other_channel, other_mix_factor, mix_at, other_seconds)`.
The nested `self.stereo(...)` / `other.stereo(...)` calls here always hit
the mono branch of `stereo`, written `stereoFromMono`. -/
def stereo_mix (s other : Sample) (other_channel : Char) (other_mix_factor : ℚ)
    (mixAtSeconds : ℚ) (other_seconds : Option ℚ) : Except PyErr Sample :=
  if s.locked then .error .lockedError
  else if ¬ (other.nchannels = 1 ∧ other.samplerate = s.samplerate ∧
             other.samplewidth = s.samplewidth) then .error .assertError
  else if ¬ (other_channel = 'L' ∨ other_channel = 'R') then .error .assertError
  else do
    let selfStep := if s.nchannels = 1 then
              (if other_channel = 'L' then s.stereoFromMono 0 1 else s.stereoFromMono 1 0)
            else pure s
    let s ← selfStep
    let otherStep := if other_channel = 'L' then (other.copy).stereoFromMono other_mix_factor 0
            else (other.copy).stereoFromMono 0 other_mix_factor
    let o ← otherStep
    s.mix_at mixAtSeconds o other_seconds

/-- `stereo(left_factor, right_factor)`. -/
def stereo (s : Sample) (left_factor right_factor : ℚ) : Except PyErr Sample :=
  if s.locked then .error .lockedError
  else if s.nchannels = 2 then do
    let r ← (s.copy).right
    let l ← s.left
    let l ← l.amplify left_factor
    l.stereo_mix r 'R' right_factor 0 none
  else if s.nchannels = 1 then s.stereoFromMono left_factor right_factor
  else .error .valueError

/-- `get_32bit_frames(scale_amplitude)`. -/
def get_32bit_frames (s : Sample) (scale_amplitude : Bool) : Except PyErr (List ℕ) :=
  if s.samplewidth = 4 then .ok s.frames
  else
    (audioop_lin2lin s.frames s.samplewidth 4).bind fun fr =>
      if ¬ scale_amplitude then
        audioop_mul fr 4 (1 / 2 ^ (8 * (if s.samplewidth ≤ 4 then 4 - s.samplewidth
                                        else s.samplewidth - 4)))
      else .ok fr

/-- `make_32bit(scale_amplitude)`. -/
def make_32bit (s : Sample) (scale_amplitude : Bool) : Except PyErr Sample :=
  if s.locked then .error .lockedError
  else (s.get_32bit_frames scale_amplitude).map fun fr =>
    { s with frames := fr, samplewidth := 4 }

/-- `make_16bit(maximize_amplitude)`. -/
def make_16bit (s : Sample) (maximize_amplitude : Bool) : Except PyErr Sample :=
  if s.locked then .error .lockedError
  else if ¬ (2 ≤ s.samplewidth) then .error .assertError
  else do
    let maxStep := if maximize_amplitude then s.amplify_max else pure s
    let s ← maxStep
    if 2 < s.samplewidth then
      (audioop_lin2lin s.frames s.samplewidth 2).map fun bs =>
        { s with frames := bs, samplewidth := 2 }
    else pure s

/-- `delay(seconds, keep_length)`. -/
def delay (s : Sample) (seconds : ℚ) (keep_length : Bool) : Except PyErr Sample :=
  if s.locked then .error .lockedError
  else if seconds > 0 then
    if keep_length then do
      let num_frames := s.frames.length
      let s ← s.add_silence seconds true
      .ok { s with frames := s.frames.take num_frames }
    else s.add_silence seconds true
  else if seconds < 0 then
    let seconds := -seconds
    if keep_length then do
      let num_frames := s.frames.length
      let s ← s.add_silence seconds false
      .ok { s with frames := s.frames.drop (s.frames.length - num_frames) }
    else .ok { s with frames := pyDrop s.frames (s.frame_idx seconds) }
  else .ok s

end Sample

/-! ## `audioop.ratecv` and `resample` -/

/-- The emit phase of `ratecv`'s main loop: while `d >= 0`, output one
interpolated frame per channel and decrease `d` by `inrate`.  The fuel is
an upper bound on the number of emitted frames. -/
def ratecvEmit (prev cur : List ℤ) (outrate inrate : ℕ) : ℕ → ℤ → List (List ℤ) × ℤ
  | 0, d => ([], d)
  | f + 1, d =>
    if 0 ≤ d then
      let frame := List.zipWith
        (fun (p c : ℤ) => pytrunc (((p : ℚ) * (d : ℚ) + (c : ℚ) * ((outrate : ℚ) - (d : ℚ))) / (outrate : ℚ)))
        prev cur
      let rest := ratecvEmit prev cur outrate inrate f (d - inrate)
      (frame :: rest.1, rest.2)
    else ([], d)

/-- The consume/emit alternation of `ratecv` (weights at their defaults
`weightA = 1, weightB = 0`, so the digital filter is the identity). -/
def ratecvGo (outrate inrate : ℕ) : List (List ℤ) → ℤ → List ℤ → List ℤ → List (List ℤ)
  | [], _, _, _ => []
  | f :: rest, d, _, cur =>
    let prev := cur
    let cur := f
    let d := d + (outrate : ℤ)
    let em := ratecvEmit prev cur outrate inrate (d.toNat + 1) d
    em.1 ++ ratecvGo outrate inrate rest em.2 prev cur

/-- `audioop.ratecv(fragment, width, nchannels, inrate, outrate, None)`
(first component of the result only): sample values are widened to 32
bits, linearly interpolated at the reduced rate ratio, and narrowed
back. -/
def audioop_ratecv (bs : List ℕ) (w nch inrate outrate : ℕ) : Except PyErr (List ℕ) :=
  if w = 0 ∨ nch = 0 ∨ nch > 2 ∨ inrate ≤ 0 ∨ outrate ≤ 0 then .error .audioopError
  else match sampleValues w bs with
  | none => .error .audioopError
  | some vs =>
    if ¬ (nch ∣ vs.length) then .error .audioopError
    else
      let g := Nat.gcd inrate outrate
      let inr := inrate / g
      let outr := outrate / g
      let vs32 := vs.map fun (v : ℤ) => v * 2 ^ (8 * (4 - w))
      let inframes := framesOfValuesGo nch (vs32.length / nch) vs32
      let outframes := ratecvGo outr inr inframes (-(outr : ℤ))
        (List.replicate nch 0) (List.replicate nch 0)
      .ok (bytesOfValues w ((outframes.foldr (· ++ ·) []).map
        fun (v : ℤ) => Int.fdiv v (2 ^ (8 * (4 - w)))))

namespace Sample

/-- `resample(samplerate)`: rate conversion keeping pitch and duration. -/
def resample (s : Sample) (samplerate : ℕ) : Except PyErr Sample :=
  if s.locked then .error .lockedError
  else if samplerate = s.samplerate then .ok s
  else
    (audioop_ratecv s.frames s.samplewidth s.nchannels s.samplerate samplerate).map fun bs =>
      { s with frames := bs, samplerate := samplerate }

end Sample

/-! ## The playback worker (`Output.SoundOutputter`)

`close()` enqueues `None` as the shutdown token.  The worker's `run`
loop dequeues items and tests `if not sample: break` — Python falsiness,
which for a `Sample` is decided by `__len__`. -/

/-- The item enqueued by `Output.close()`. -/
def closeToken : Option Sample := none

/-- Python `not sample` for a dequeued item: `None` is falsy, and a
`Sample` is falsy exactly when its `__len__` is 0. -/
def pyNotItem : Option Sample → Bool
  | none => true
  | some s => s.pyLen == 0

/-- The worker's `run` loop over the queue contents: dequeue, exit when
the item is falsy, otherwise write the sample's frames to the stream and
continue.  Returns the list of samples written before exiting. -/
def runWorker : List (Option Sample) → List Sample
  | [] => []
  | item :: rest =>
    if pyNotItem item then []
    else (match item with | some s => s :: runWorker rest | none => [])

/-! ## `LevelMeter` -/

/-- `Sample.__db_level(rms_mode)`: per-channel level in dB full scale,
cut off at -60 dB.  `math.log(x, 10)` is `Real.logb 10 x`. -/
noncomputable def Sample.db_level (s : Sample) (rms_mode : Bool) : Except PyErr (ℝ × ℝ) :=
  let maxvalue : ℝ := 2 ^ (8 * s.samplewidth - 1)
  if s.nchannels = 1 then
    (if rms_mode then audioop_rms s.frames s.samplewidth
     else audioop_max s.frames s.samplewidth).map fun (m : ℤ) =>
      let peak := ((m : ℝ) + 1) / maxvalue
      (max (20 * Real.logb 10 peak) (-60), max (20 * Real.logb 10 peak) (-60))
  else do
    let lf ← audioop_tomono s.frames s.samplewidth 1 0
    let rf ← audioop_tomono s.frames s.samplewidth 0 1
    let ml ← if rms_mode then audioop_rms lf s.samplewidth else audioop_max lf s.samplewidth
    let mr ← if rms_mode then audioop_rms rf s.samplewidth else audioop_max rf s.samplewidth
    .ok (max (20 * Real.logb 10 (((ml : ℝ) + 1) / maxvalue)) (-60),
         max (20 * Real.logb 10 (((mr : ℝ) + 1) / maxvalue)) (-60))

/-- `LevelMeter` state: mode and floor fixed at construction, then the
per-channel peaks with their hold timestamps, instantaneous levels, and
the elapsed-time accumulator. -/
structure LevelMeter where
  rms : Bool
  lowest : ℝ
  peak_left : ℝ
  peak_right : ℝ
  peak_left_hold : ℝ
  peak_right_hold : ℝ
  level_left : ℝ
  level_right : ℝ
  time : ℝ

/-- `LevelMeter(rms_mode, lowest)` followed by `reset()`. -/
noncomputable def LevelMeter.init (rms_mode : Bool) (lowest : ℝ) : Except PyErr LevelMeter :=
  if -60 ≤ lowest ∧ lowest < 0 then
    .ok { rms := rms_mode, lowest := lowest, peak_left := lowest, peak_right := lowest,
          peak_left_hold := 0, peak_right_hold := 0, level_left := 0, level_right := 0,
          time := 0 }
  else .error .assertError

/-- `LevelMeter.process(sample)`: returns
`(left, peakleft, right, peakright)` together with the updated state. -/
noncomputable def LevelMeter.process (m : LevelMeter) (s : Sample) :
    Except PyErr ((ℝ × ℝ × ℝ × ℝ) × LevelMeter) :=
  (s.db_level m.rms).map fun lr =>
    let left := max lr.1 m.lowest
    let right := max lr.2 m.lowest
    let time := m.time + (s.duration : ℝ)
    let dpl := if time - m.peak_left_hold > 0.4 then m.peak_left - (s.duration : ℝ) * 30
               else m.peak_left
    let pl := if left ≥ dpl then (left, time) else (dpl, m.peak_left_hold)
    let dpr := if time - m.peak_right_hold > 0.4 then m.peak_right - (s.duration : ℝ) * 30
               else m.peak_right
    let pr := if right ≥ dpr then (right, time) else (dpr, m.peak_right_hold)
    ((left, pl.1, right, pr.1),
     { m with peak_left := pl.1, peak_left_hold := pl.2,
              peak_right := pr.1, peak_right_hold := pr.2,
              level_left := left, level_right := right, time := time })

/-! ## Basic lemmas about the Python primitives -/

theorem sysByteorder_ne_big : (sysByteorder = "big") = False := by simp [sysByteorder]

theorem pytrunc_zero : pytrunc 0 = 0 := by simp [pytrunc]

theorem pytrunc_of_nonneg {q : ℚ} (h : 0 ≤ q) : pytrunc q = ⌊q⌋ := by simp [pytrunc, h]

theorem pytrunc_natCast (n : ℕ) : pytrunc (n : ℚ) = n := by
  simp [pytrunc, Nat.cast_nonneg]

theorem pytrunc_nonneg {q : ℚ} (h : 0 ≤ q) : 0 ≤ pytrunc q := by
  rw [pytrunc_of_nonneg h]
  exact Int.floor_nonneg.mpr h

/-- Truncation toward zero never increases the magnitude. -/
theorem abs_pytrunc_le (q : ℚ) : |(pytrunc q : ℚ)| ≤ |q| := by
  unfold pytrunc
  rcases le_or_lt 0 q with h | h
  · rw [if_pos h, abs_of_nonneg h,
      abs_of_nonneg (by exact_mod_cast Int.floor_nonneg.mpr h)]
    exact_mod_cast Int.floor_le q
  · have hc : ⌈q⌉ ≤ 0 := Int.ceil_le.2 (by exact_mod_cast h.le)
    rw [if_neg (not_le.mpr h), abs_of_nonpos h.le, abs_of_nonpos (by exact_mod_cast hc)]
    exact neg_le_neg (Int.le_ceil q)

/-- Exact division: `int(a / b)` recovers natural division when `b ∣ a`. -/
theorem pytrunc_nat_div {a b : ℕ} (h : b ∣ a) : pytrunc ((a : ℚ) / (b : ℚ)) = (a / b : ℕ) := by
  rcases Nat.eq_zero_or_pos b with hb | hb
  · subst hb
    obtain rfl : a = 0 := Nat.eq_zero_of_zero_dvd h
    simp [pytrunc]
  · obtain ⟨c, rfl⟩ := h
    have hbq : (b : ℚ) ≠ 0 := Nat.cast_ne_zero.mpr hb.ne'
    rw [Nat.mul_div_cancel_left c hb]
    have : ((b * c : ℕ) : ℚ) / (b : ℚ) = (c : ℚ) := by
      push_cast
      field_simp
    rw [this, pytrunc_natCast]

theorem pyIndex_le_length (len : ℕ) (i : ℤ) : pyIndex len i ≤ len := by
  unfold pyIndex
  split
  · omega
  · omega

theorem pyTake_append_pyDrop (l : List α) (i : ℤ) : pyTake l i ++ pyDrop l i = l :=
  List.take_append_drop _ l

theorem length_pyTake (l : List α) (i : ℤ) : (pyTake l i).length = pyIndex l.length i := by
  simp [pyTake, Nat.min_eq_left (pyIndex_le_length l.length i)]

theorem length_pyDrop (l : List α) (i : ℤ) :
    (pyDrop l i).length = l.length - pyIndex l.length i := by
  simp [pyDrop]

theorem dvd_pyIndex {k len : ℕ} {i : ℤ} (hl : k ∣ len) (hi : (k : ℤ) ∣ i) :
    k ∣ pyIndex len i := by
  unfold pyIndex
  split
  · have hd : (k : ℤ) ∣ (len : ℤ) + i := Dvd.dvd.add (Int.natCast_dvd_natCast.mpr hl) hi
    rcases le_or_lt ((len : ℤ) + i) 0 with h | h
    · rw [Int.toNat_of_nonpos h]
      exact Dvd.intro 0 rfl
    · rw [← Int.toNat_of_nonneg h.le] at hd
      exact_mod_cast hd
  · rcases le_or_lt 0 i with h | h
    · rcases Nat.le_total i.toNat len with hle | hle
      · rw [min_eq_left hle]
        rw [← Int.toNat_of_nonneg h] at hi
        exact_mod_cast hi
      · rw [min_eq_right hle]
        exact hl
    · omega

/-! ## Codec lemmas -/

theorem length_encodeU (w m : ℕ) : (encodeU w m).length = w := by
  induction w generalizing m with
  | zero => simp [encodeU]
  | succ w ih => simp [encodeU, ih]

theorem encodeU_lt (w m : ℕ) : ∀ b ∈ encodeU w m, b < 256 := by
  induction w generalizing m with
  | zero => simp [encodeU]
  | succ w ih =>
    intro b hb
    rcases List.mem_cons.mp hb with h | h
    · subst h
      exact Nat.mod_lt _ (by norm_num)
    · exact ih _ b h

theorem two_pow_8mul (w : ℕ) : (2 : ℕ) ^ (8 * w) = 256 ^ w := by
  rw [pow_mul]
  norm_num

theorem decodeU_encodeU (w m : ℕ) : decodeU (encodeU w m) = m % 256 ^ w := by
  induction w generalizing m with
  | zero => simp [encodeU, decodeU, Nat.mod_one]
  | succ w ih =>
    rw [encodeU, decodeU, ih, pow_succ', Nat.mod_mul]

theorem decodeU_lt {bs : List ℕ} (h : ∀ b ∈ bs, b < 256) : decodeU bs < 256 ^ bs.length := by
  induction bs with
  | nil => simp [decodeU]
  | cons b bs ih =>
    have hb := h b (List.mem_cons_self b bs)
    have hrest := ih fun x hx => h x (List.mem_cons_of_mem _ hx)
    rw [decodeU, List.length_cons, pow_succ']
    calc b + 256 * decodeU bs < 256 + 256 * decodeU bs := by omega
    _ ≤ 256 * 256 ^ bs.length := by omega

theorem decodeU_replicate_zero (n : ℕ) : decodeU (List.replicate n 0) = 0 := by
  induction n with
  | zero => simp [decodeU]
  | succ n ih => simp [List.replicate, decodeU, ih]

theorem length_encodeSample (w : ℕ) (v : ℤ) : (encodeSample w v).length = w :=
  length_encodeU w _

theorem encodeSample_lt (w : ℕ) (v : ℤ) : ∀ b ∈ encodeSample w v, b < 256 :=
  encodeU_lt w _

theorem encodeSample_zero (w : ℕ) : encodeSample w 0 = List.replicate w 0 := by
  unfold encodeSample
  norm_num
  induction w with
  | zero => simp [encodeU]
  | succ w ih => simp [encodeU, List.replicate, ih]

/-- Decode-of-encode round trip for in-range values. -/
theorem decode_encodeSample {w : ℕ} (hw : 0 < w) {v : ℤ}
    (h1 : minval w ≤ v) (h2 : v ≤ maxval w) : decodeSample w (encodeSample w v) = v := by
  have hsplit : (2 : ℤ) ^ (8 * w) = 2 ^ (8 * w - 1) * 2 := by
    rw [← pow_succ]
    congr 1
    omega
  have hNnat : ((2 ^ (8 * w - 1) : ℕ) : ℤ) = 2 ^ (8 * w - 1) := by push_cast; ring
  have h256c : ((256 ^ w : ℕ) : ℤ) = 2 ^ (8 * w) := by
    rw [← two_pow_8mul]
    push_cast
    ring
  have hBpos : (0 : ℤ) < 2 ^ (8 * w - 1) := by positivity
  unfold minval at h1
  unfold maxval at h2
  unfold encodeSample decodeSample
  rw [decodeU_encodeU]
  have hMpos : (0 : ℤ) < 2 ^ (8 * w) := by positivity
  have hnn : 0 ≤ v % 2 ^ (8 * w) := Int.emod_nonneg v hMpos.ne'
  have hlt : v % 2 ^ (8 * w) < 2 ^ (8 * w) := Int.emod_lt_of_pos v hMpos
  have hup : (v % 2 ^ (8 * w)).toNat % 256 ^ w = (v % 2 ^ (8 * w)).toNat := by
    apply Nat.mod_eq_of_lt
    omega
  rw [hup]
  rcases le_or_lt 0 v with hv | hv
  · have hmod : v % 2 ^ (8 * w) = v := Int.emod_eq_of_lt hv (by omega)
    have hsm : ¬ (2 ^ (8 * w - 1) ≤ (v % 2 ^ (8 * w)).toNat) := by omega
    rw [if_neg hsm]
    omega
  · have hmod : v % 2 ^ (8 * w) = v + 2 ^ (8 * w) := by
      have h3 : (v + 2 ^ (8 * w) * 1) % 2 ^ (8 * w) = v % 2 ^ (8 * w) :=
        Int.add_mul_emod_self_left v (2 ^ (8 * w)) 1
      rw [mul_one] at h3
      rw [← h3]
      exact Int.emod_eq_of_lt (by omega) (by omega)
    have hbg : 2 ^ (8 * w - 1) ≤ (v % 2 ^ (8 * w)).toNat := by omega
    rw [if_pos hbg]
    omega

/-- Decoded values of well-formed byte groups are in range. -/
theorem decodeSample_range {w : ℕ} (hw : 0 < w) {bs : List ℕ} (hlen : bs.length = w)
    (h : ∀ b ∈ bs, b < 256) : minval w ≤ decodeSample w bs ∧ decodeSample w bs ≤ maxval w := by
  unfold decodeSample minval maxval
  have hu : decodeU bs < 256 ^ w := hlen ▸ decodeU_lt h
  have hsplit : (2 : ℤ) ^ (8 * w) = 2 ^ (8 * w - 1) * 2 := by
    rw [← pow_succ]
    congr 1
    omega
  have hNnat : ((2 ^ (8 * w - 1) : ℕ) : ℤ) = 2 ^ (8 * w - 1) := by push_cast; ring
  have h256c : ((256 ^ w : ℕ) : ℤ) = 2 ^ (8 * w) := by
    rw [← two_pow_8mul]
    push_cast
    ring
  have hBpos : (0 : ℤ) < 2 ^ (8 * w - 1) := by positivity
  rcases le_or_lt (2 ^ (8 * w - 1)) (decodeU bs) with hbig | hsmall
  · rw [if_pos hbig]
    constructor <;> omega
  · rw [if_neg (not_le.mpr hsmall)]
    constructor <;> omega

/-! ## Fragment-level lemmas -/

theorem length_bytesOfValues (w : ℕ) (vs : List ℤ) :
    (bytesOfValues w vs).length = w * vs.length := by
  induction vs with
  | nil => simp [bytesOfValues]
  | cons v vs ih =>
    simp [bytesOfValues, ih, length_encodeSample]
    ring

theorem bytesOfValues_lt (w : ℕ) (vs : List ℤ) : ∀ b ∈ bytesOfValues w vs, b < 256 := by
  induction vs with
  | nil => simp [bytesOfValues]
  | cons v vs ih =>
    intro b hb
    rcases List.mem_append.mp hb with h | h
    · exact encodeSample_lt w v b h
    · exact ih b h

theorem length_sampleValuesGo (w n : ℕ) (bs : List ℕ) :
    (sampleValuesGo w n bs).length = n := by
  induction n generalizing bs with
  | zero => simp [sampleValuesGo]
  | succ n ih => simp [sampleValuesGo, ih]

theorem sampleValuesGo_append {w n : ℕ} {bs1 : List ℕ} (h : bs1.length = n * w)
    (bs2 : List ℕ) (k : ℕ) :
    sampleValuesGo w (n + k) (bs1 ++ bs2) = sampleValuesGo w n bs1 ++ sampleValuesGo w k bs2 := by
  induction n generalizing bs1 with
  | zero =>
    have : bs1 = [] := List.eq_nil_of_length_eq_zero (by omega)
    subst this
    simp [sampleValuesGo]
  | succ n ih =>
    have hw1 : w ≤ bs1.length := by
      rw [h]
      calc w = 1 * w := (one_mul w).symm
      _ ≤ (n + 1) * w := Nat.mul_le_mul_right w (by omega)
    have hdl : (bs1.drop w).length = n * w := by
      rw [List.length_drop, h]
      have : (n + 1) * w = n * w + w := by ring
      omega
    have hsa : n + 1 + k = (n + k) + 1 := by omega
    rw [hsa]
    rw [sampleValuesGo, sampleValuesGo,
      List.take_append_of_le_length hw1, List.drop_append_of_le_length hw1,
      ih hdl]
    simp

theorem sampleValuesGo_bytesOfValues {w : ℕ} (hw : 0 < w) {vs : List ℤ}
    (hr : ∀ v ∈ vs, minval w ≤ v ∧ v ≤ maxval w) :
    sampleValuesGo w vs.length (bytesOfValues w vs) = vs := by
  induction vs with
  | nil => simp [sampleValuesGo]
  | cons v vs ih =>
    have hv := hr v (List.mem_cons_self v vs)
    have hrest : ∀ x ∈ vs, minval w ≤ x ∧ x ≤ maxval w :=
      fun x hx => hr x (List.mem_cons_of_mem _ hx)
    have hlen : (encodeSample w v).length = w := length_encodeSample w v
    rw [List.length_cons, bytesOfValues, sampleValuesGo,
      List.take_append_of_le_length (le_of_eq hlen.symm),
      List.drop_append_of_le_length (le_of_eq hlen.symm)]
    rw [List.take_of_length_le (le_of_eq hlen), List.drop_of_length_le (le_of_eq hlen),
      List.nil_append, decode_encodeSample hw hv.1 hv.2, ih hrest]

theorem sampleValues_bytesOfValues {w : ℕ} (hw : 0 < w) {vs : List ℤ}
    (hr : ∀ v ∈ vs, minval w ≤ v ∧ v ≤ maxval w) :
    sampleValues w (bytesOfValues w vs) = some vs := by
  unfold sampleValues
  rw [length_bytesOfValues, if_pos ⟨hw, dvd_mul_right w vs.length⟩,
    Nat.mul_div_cancel_left _ hw, sampleValuesGo_bytesOfValues hw hr]

theorem decodeU_zero {bs : List ℕ} (hz : ∀ b ∈ bs, b = 0) : decodeU bs = 0 := by
  induction bs with
  | nil => rfl
  | cons b bs ih =>
    have hb := hz b (List.mem_cons_self b bs)
    have := ih fun x hx => hz x (List.mem_cons_of_mem _ hx)
    simp [decodeU, hb, this]

theorem decodeSample_zero {w : ℕ} (_hw : 0 < w) {bs : List ℕ} (hz : ∀ b ∈ bs, b = 0) :
    decodeSample w bs = 0 := by
  unfold decodeSample
  have h1 : 0 < 2 ^ (8 * w - 1) := by positivity
  simp [decodeU_zero hz, Nat.not_le.mpr h1]

theorem sampleValuesGo_silent {w : ℕ} (hw : 0 < w) (n : ℕ) {bs : List ℕ}
    (hz : ∀ b ∈ bs, b = 0) : sampleValuesGo w n bs = List.replicate n 0 := by
  induction n generalizing bs with
  | zero => rfl
  | succ n ih =>
    rw [sampleValuesGo, decodeSample_zero hw fun b hb => hz b (List.mem_of_mem_take hb),
      ih fun b hb => hz b (List.mem_of_mem_drop hb)]
    rfl

/-! ## `listAbsMax` and `fbound` lemmas -/

theorem listAbsMax_nonneg (vs : List ℤ) : 0 ≤ listAbsMax vs := by
  induction vs with
  | nil => simp [listAbsMax]
  | cons v vs ih =>
    rw [listAbsMax, List.foldr_cons]
    exact le_trans ih (le_max_right _ _)

theorem le_listAbsMax {vs : List ℤ} {v : ℤ} (h : v ∈ vs) : |v| ≤ listAbsMax vs := by
  induction vs with
  | nil => cases h
  | cons x vs ih =>
    rw [listAbsMax, List.foldr_cons]
    rcases List.mem_cons.mp h with rfl | h
    · exact le_max_left _ _
    · exact le_trans (ih h) (le_max_right _ _)

theorem listAbsMax_le {vs : List ℤ} {M : ℤ} (hM : 0 ≤ M) (h : ∀ v ∈ vs, |v| ≤ M) :
    listAbsMax vs ≤ M := by
  induction vs with
  | nil => simpa [listAbsMax] using hM
  | cons v vs ih =>
    rw [listAbsMax, List.foldr_cons]
    exact max_le (h v (List.mem_cons_self v vs))
      (ih fun x hx => h x (List.mem_cons_of_mem _ hx))

theorem listAbsMax_eq_zero_or_mem (vs : List ℤ) :
    listAbsMax vs = 0 ∨ ∃ v ∈ vs, |v| = listAbsMax vs := by
  induction vs with
  | nil => exact Or.inl rfl
  | cons v vs ih =>
    rw [listAbsMax, List.foldr_cons]
    rcases le_or_lt (|v|) (vs.foldr (fun v m => max |v| m) 0) with hle | hlt
    · rw [max_eq_right hle]
      rcases ih with h0 | ⟨x, hx, hax⟩
      · exact Or.inl h0
      · exact Or.inr ⟨x, List.mem_cons_of_mem _ hx, hax⟩
    · rw [max_eq_left hlt.le]
      exact Or.inr ⟨v, List.mem_cons_self v vs, rfl⟩

theorem listAbsMax_replicate_zero (n : ℕ) : listAbsMax (List.replicate n 0) = 0 := by
  induction n with
  | zero => rfl
  | succ n ih =>
    rw [List.replicate, listAbsMax, List.foldr_cons]
    rw [listAbsMax] at ih
    simp [ih]

theorem fbound_range (w : ℕ) (v : ℚ) : minval w ≤ fbound w v ∧ fbound w v ≤ maxval w := by
  have hmm : minval w + 1 ≤ maxval w + 1 := by
    unfold minval maxval
    have : (0 : ℤ) < 2 ^ (8 * w - 1) := by positivity
    omega
  unfold fbound
  split
  · omega
  · split
    · omega
    · rename_i hgt hlt
      push_neg at hgt hlt
      have hfl : minval w + 1 ≤ ⌊v⌋ := Int.le_floor.mpr (by push_cast; exact hlt)
      have hfu : ⌊v⌋ ≤ maxval w := by
        have h := Int.floor_le_floor hgt
        rwa [Int.floor_intCast] at h
      omega

/-- `fbound` is the identity on in-range integer inputs. -/
theorem fbound_intCast {w : ℕ} {a : ℤ} (h1 : minval w ≤ a) (h2 : a ≤ maxval w) :
    fbound w (a : ℚ) = a := by
  unfold fbound
  rw [if_neg (not_lt.mpr (by exact_mod_cast h2))]
  by_cases hc : (a : ℚ) < (minval w : ℚ) + 1
  · rw [if_pos hc]
    have : a < minval w + 1 := by exact_mod_cast hc
    omega
  · rw [if_neg hc]
    exact Int.floor_intCast a

/-- On inputs that stay strictly inside the clamp window, `fbound` is the
floor. -/
theorem fbound_eq_floor {w : ℕ} {v : ℚ} (h1 : (minval w : ℚ) + 1 ≤ v)
    (h2 : v ≤ (maxval w : ℚ)) : fbound w v = ⌊v⌋ := by
  unfold fbound
  rw [if_neg (not_lt.mpr h2), if_neg (not_lt.mpr h1)]

/-! ## Claim C8: `mix_at(0, other) == mix(other)` -/

/-- C8: for every pair of samples and every limit argument, `mix_at` with
offset 0 produces exactly the same result as `mix` with the same other
sample and limit (and the default `pad_shortest=True`): the code
delegates before any other check, so this holds for all samples, in
particular for compatible unlocked ones. -/
theorem mix_at_zero_eq_mix (s other : Sample) (lim : Option ℚ) :
    s.mix_at 0 other lim = s.mix other lim true := by
  unfold Sample.mix_at
  rw [if_pos rfl]

/-! ## Claim C1: mutating operations on a locked sample -/

/-- C1 (amended): on a locked sample every buffer-mutating method among
`amplify`, `mix`, `fadein`, `fadeout`, `resample`, `clip` and `join`
fails with the locked-sample error before touching any state; the
`samplerate` property setter, however, performs no lock check: it only
asserts `rate > 0` and then overwrites the sample rate even on a locked
instance. -/
theorem locked_sample_mutators (s : Sample) (hs : s.locked = true) :
    (∀ f, s.amplify f = .error .lockedError) ∧
    (∀ other lim pad, s.mix other lim pad = .error .lockedError) ∧
    (∀ t v, s.fadein t v = .error .lockedError) ∧
    (∀ t v, s.fadeout t v = .error .lockedError) ∧
    (∀ r, s.resample r = .error .lockedError) ∧
    (∀ a b, s.clip a b = .error .lockedError) ∧
    (∀ other, s.join other = .error .lockedError) ∧
    (∀ r, 0 < r → s.setSamplerate r = .ok { s with samplerate := (pytrunc r).toNat }) := by
  refine ⟨?_, ?_, ?_, ?_, ?_, ?_, ?_, ?_⟩
  · intro f
    simp [Sample.amplify, hs]
  · intro other lim pad
    simp [Sample.mix, hs]
  · intro t v
    simp [Sample.fadein, hs]
  · intro t v
    simp [Sample.fadeout, hs]
  · intro r
    simp [Sample.resample, hs]
  · intro a b
    simp [Sample.clip, hs]
  · intro other
    simp [Sample.join, hs]
  · intro r hr
    simp [Sample.setSamplerate, not_lt.mpr hr.le, hr]

/-- A concrete locked sample used by the C1 witness and counterexample. -/
def lockedDemo : Sample :=
  { frames := [1, 0, 2, 0], samplewidth := 2, samplerate := 44100, nchannels := 2,
    locked := true }

/-- C1 witness: the locked-sample theorem applied at a concrete locked
instance. -/
theorem locked_sample_mutators_witness :
    lockedDemo.locked = true ∧ lockedDemo.amplify 2 = .error .lockedError :=
  ⟨rfl, (locked_sample_mutators lockedDemo rfl).1 2⟩

/-- C1 counterexample: the claim says setting `samplerate` on a locked
sample fails with a LockedError and leaves the sample unchanged; in fact
the setter succeeds and changes the rate of the locked instance. -/
theorem locked_setSamplerate_succeeds :
    lockedDemo.setSamplerate 22050 =
      .ok { frames := [1, 0, 2, 0], samplewidth := 2, samplerate := 22050, nchannels := 2,
            locked := true } := by
  simp only [Sample.setSamplerate, lockedDemo]
  norm_num [pytrunc]
  decide

/-! ## Claim C4: worker shutdown token vs. legitimate payloads -/

/-- C4 (amended): the worker exits after dequeuing the `None` token that
`close()` enqueues, and it never exits on a payload sample whose frame
count is nonzero; but the exit test is Python falsiness (`if not sample`,
decided by `Sample.__len__`), so dequeuing a legitimate zero-length
`Sample` also makes the worker exit — the shutdown condition is not
distinct from every legitimate payload. -/
theorem worker_exit_behavior :
    pyNotItem closeToken = true ∧
    (∀ s : Sample, s.pyLen ≠ 0 → pyNotItem (some s) = false) ∧
    (∀ s : Sample, s.pyLen = 0 → pyNotItem (some s) = true) ∧
    (∀ rest, runWorker (closeToken :: rest) = []) ∧
    (∀ (s : Sample) rest, s.pyLen ≠ 0 → runWorker (some s :: rest) = s :: runWorker rest) := by
  refine ⟨rfl, ?_, ?_, ?_, ?_⟩
  · intro s hs
    simp [pyNotItem, hs]
  · intro s hs
    simp [pyNotItem, hs]
  · intro rest
    rfl
  · intro s rest hs
    simp [runWorker, pyNotItem, hs]

/-- A legitimate nonzero-length sample for the worker model. -/
def payloadDemo : Sample :=
  { frames := [0, 1, 0, 1], samplewidth := 2, samplerate := 44100, nchannels := 2,
    locked := false }

/-- A legitimate zero-length sample (constructible via the public
`from_raw_frames` constructor with valid arguments). -/
def emptyDemo : Sample :=
  { frames := [], samplewidth := 2, samplerate := 44100, nchannels := 2, locked := false }

/-- C4 witness: the worker-exit theorem applied at a concrete nonzero
payload. -/
theorem worker_exit_behavior_witness :
    payloadDemo.pyLen ≠ 0 ∧
      runWorker [some payloadDemo, closeToken] = [payloadDemo] := by
  refine ⟨by decide, ?_⟩
  rw [worker_exit_behavior.2.2.2.2 payloadDemo [closeToken] (by decide)]
  rfl

/-- C4 counterexample: a zero-length `Sample` — a legitimate payload,
accepted by `from_raw_frames` — is falsy, so dequeuing it terminates the
worker even though no shutdown token was ever enqueued (the following
queued sample is never played). -/
theorem worker_exits_on_empty_sample :
    Sample.from_raw_frames [] 2 44100 2 = .ok emptyDemo ∧
      pyNotItem (some emptyDemo) = true ∧
      runWorker [some emptyDemo, some payloadDemo] = [] := by
  refine ⟨by decide, rfl, rfl⟩

/-! ## Inversion helpers for `Except` and `sampleValues` -/

theorem except_map_ok {α β : Type} {e : Except PyErr α} {f : α → β} {b : β}
    (h : e.map f = .ok b) : ∃ a, e = .ok a ∧ b = f a := by
  cases e with
  | error err => simp [Except.map] at h
  | ok a =>
    refine ⟨a, rfl, ?_⟩
    simpa [Except.map] using h.symm

theorem except_bind_ok {α β : Type} {e : Except PyErr α} {f : α → Except PyErr β} {b : β}
    (h : e.bind f = .ok b) : ∃ a, e = .ok a ∧ f a = .ok b := by
  cases e with
  | error err => simp [Except.bind] at h
  | ok a => exact ⟨a, rfl, by simpa [Except.bind] using h⟩

theorem sampleValues_ok {w : ℕ} {bs : List ℕ} {vs : List ℤ}
    (h : sampleValues w bs = some vs) :
    0 < w ∧ w ∣ bs.length ∧ vs.length = bs.length / w ∧
      vs = sampleValuesGo w (bs.length / w) bs := by
  unfold sampleValues at h
  split at h
  · rename_i hc
    cases h
    exact ⟨hc.1, hc.2, length_sampleValuesGo _ _ _, rfl⟩
  · cases h

theorem sampleValues_some_of {w : ℕ} (hw : 0 < w) {bs : List ℕ} (hd : w ∣ bs.length) :
    sampleValues w bs = some (sampleValuesGo w (bs.length / w) bs) := by
  unfold sampleValues
  rw [if_pos ⟨hw, hd⟩]

/-! ## Length behavior of the audioop kernel operations -/

theorem audioop_mul_ok_length {bs : List ℕ} {w : ℕ} {f : ℚ} {out : List ℕ}
    (h : audioop_mul bs w f = .ok out) :
    out.length = bs.length ∧ ∀ b ∈ out, b < 256 := by
  unfold audioop_mul at h
  split at h
  · rename_i vs hvs
    cases h
    obtain ⟨hw, hd, hlen, -⟩ := sampleValues_ok hvs
    constructor
    · simp only [length_bytesOfValues, List.length_map, hlen]
      exact Nat.mul_div_cancel' hd
    · exact bytesOfValues_lt _ _
  · cases h

theorem audioop_mul_some {bs : List ℕ} {w : ℕ} (hw : 0 < w) (hd : w ∣ bs.length) (f : ℚ) :
    ∃ out, audioop_mul bs w f = .ok out := by
  unfold audioop_mul
  rw [sampleValues_some_of hw hd]
  exact ⟨_, rfl⟩

theorem audioop_add_ok_length {b1 b2 : List ℕ} {w : ℕ} {out : List ℕ}
    (h : audioop_add b1 b2 w = .ok out) :
    b1.length = b2.length ∧ out.length = b1.length ∧ ∀ b ∈ out, b < 256 := by
  unfold audioop_add at h
  split at h
  · cases h
  · rename_i hne
    push_neg at hne
    refine ⟨hne, ?_⟩
    split at h
    · rename_i v1 v2 hv1 hv2
      cases h
      obtain ⟨hw, hd1, hl1, -⟩ := sampleValues_ok hv1
      obtain ⟨-, hd2, hl2, -⟩ := sampleValues_ok hv2
      constructor
      · simp only [length_bytesOfValues, List.length_zipWith, hl1, hl2, hne, min_self]
        exact Nat.mul_div_cancel' (hne ▸ hd2)
      · exact bytesOfValues_lt _ _
    · cases h

theorem audioop_add_some {b1 b2 : List ℕ} {w : ℕ} (hw : 0 < w)
    (hlen : b1.length = b2.length) (hd : w ∣ b1.length) :
    ∃ out, audioop_add b1 b2 w = .ok out := by
  unfold audioop_add
  rw [if_neg (by omega), sampleValues_some_of hw hd, sampleValues_some_of hw (hlen ▸ hd)]
  exact ⟨_, rfl⟩

theorem length_framesOfValuesGo (nch n : ℕ) (vs : List ℤ) :
    (framesOfValuesGo nch n vs).length = n := by
  induction n generalizing vs with
  | zero => rfl
  | succ n ih => simp [framesOfValuesGo, ih]

theorem audioop_tomono_ok_length {bs : List ℕ} {w : ℕ} {lf rf : ℚ} {out : List ℕ}
    (h : audioop_tomono bs w lf rf = .ok out) :
    out.length = bs.length / 2 ∧ ∀ b ∈ out, b < 256 := by
  unfold audioop_tomono at h
  split at h
  · rename_i vs hvs
    split at h
    · rename_i hev
      cases h
      obtain ⟨hw, hd, hlen, -⟩ := sampleValues_ok hvs
      refine ⟨?_, bytesOfValues_lt _ _⟩
      rw [length_bytesOfValues, List.length_map, length_framesOfValuesGo]
      obtain ⟨c, hc⟩ := hd
      have hbc : bs.length / w = c := by
        rw [hc, Nat.mul_div_cancel_left c hw]
      rw [hlen, hbc] at hev ⊢
      obtain ⟨d, hdv⟩ := hev
      subst hdv
      rw [hc, Nat.mul_div_cancel_left d (by norm_num),
        show w * (2 * d) = 2 * (w * d) by ring,
        Nat.mul_div_cancel_left (w * d) (by norm_num)]
    · cases h
  · cases h

theorem audioop_tostereo_ok_length {bs : List ℕ} {w : ℕ} {lf rf : ℚ} {out : List ℕ}
    (h : audioop_tostereo bs w lf rf = .ok out) :
    out.length = 2 * bs.length ∧ ∀ b ∈ out, b < 256 := by
  unfold audioop_tostereo at h
  split at h
  · rename_i vs hvs
    cases h
    obtain ⟨hw, hd, hlen, -⟩ := sampleValues_ok hvs
    have hfold : ∀ l : List ℤ,
        (l.foldr (fun (v : ℤ) acc => fbound w ((v : ℚ) * lf) :: fbound w ((v : ℚ) * rf) :: acc)
          ([] : List ℤ)).length = 2 * l.length := by
      intro l
      induction l with
      | nil => rfl
      | cons x l ih =>
        simp only [List.foldr_cons, List.length_cons, ih]
        omega
    refine ⟨?_, bytesOfValues_lt _ _⟩
    rw [length_bytesOfValues, hfold, hlen]
    obtain ⟨c, hc⟩ := hd
    rw [hc, Nat.mul_div_cancel_left c hw]
    ring
  · cases h

theorem audioop_lin2lin_ok_length {bs : List ℕ} {w w2 : ℕ} {out : List ℕ}
    (h : audioop_lin2lin bs w w2 = .ok out) :
    out.length = w2 * (bs.length / w) ∧ ∀ b ∈ out, b < 256 := by
  unfold audioop_lin2lin at h
  split at h
  · rename_i vs hvs
    cases h
    obtain ⟨hw, hd, hlen, -⟩ := sampleValues_ok hvs
    constructor
    · simp only [length_bytesOfValues, List.length_map, hlen]
    · exact bytesOfValues_lt _ _
  · cases h

/-! ## The buffer-length invariant (spec §3) -/

/-- `len(frames)` is an exact multiple of `samplewidth * nchannels`. -/
def sampleInvariant (s : Sample) : Prop :=
  s.samplewidth * s.nchannels ∣ s.frames.length

theorem dvd_toNat {k : ℕ} {i : ℤ} (h : (k : ℤ) ∣ i) : k ∣ i.toNat := by
  rcases le_or_lt 0 i with hi | hi
  · rw [← Int.toNat_of_nonneg hi] at h
    exact_mod_cast h
  · rw [Int.toNat_of_nonpos hi.le]
    exact Dvd.intro 0 rfl

theorem dvd_length_pyTake {k : ℕ} {l : List α} {i : ℤ} (hl : k ∣ l.length)
    (hi : (k : ℤ) ∣ i) : k ∣ (pyTake l i).length := by
  rw [length_pyTake]
  exact dvd_pyIndex hl hi

theorem dvd_length_pyDrop {k : ℕ} {l : List α} {i : ℤ} (hl : k ∣ l.length)
    (hi : (k : ℤ) ∣ i) : k ∣ (pyDrop l i).length := by
  rw [length_pyDrop]
  exact Nat.dvd_sub' hl (dvd_pyIndex hl hi)

theorem length_pySlice (l : List α) (a b : ℤ) :
    (pySlice l a b).length = pyIndex l.length b - pyIndex l.length a := by
  unfold pySlice
  rw [List.length_drop, List.length_take,
    Nat.min_eq_left (pyIndex_le_length l.length b)]

theorem dvd_length_pySlice {k : ℕ} {l : List α} {a b : ℤ} (hl : k ∣ l.length)
    (ha : (k : ℤ) ∣ a) (hb : (k : ℤ) ∣ b) : k ∣ (pySlice l a b).length := by
  rw [length_pySlice]
  exact Nat.dvd_sub' (dvd_pyIndex hl hb) (dvd_pyIndex hl ha)

theorem frame_idx_dvd (s : Sample) (sec : ℚ) :
    ((s.samplewidth * s.nchannels : ℕ) : ℤ) ∣ s.frame_idx sec := by
  refine ⟨pytrunc ((s.samplerate : ℚ) * sec), ?_⟩
  unfold Sample.frame_idx
  push_cast
  ring_nf

/-- `frame_idx` values are divisible by the sample width alone too. -/
theorem frame_idx_dvd_width (s : Sample) (sec : ℚ) :
    ((s.samplewidth : ℕ) : ℤ) ∣ s.frame_idx sec := by
  refine ⟨(s.nchannels : ℤ) * pytrunc ((s.samplerate : ℚ) * sec), ?_⟩
  unfold Sample.frame_idx
  ring

theorem arraycode_some {w : ℕ} {c : Char} (h : Sample.samplewidths_to_arraycode w = some c) :
    w = 1 ∨ w = 2 ∨ w = 4 := by
  unfold Sample.samplewidths_to_arraycode at h
  split at h
  · exact Or.inl rfl
  · exact Or.inr (Or.inl rfl)
  · exact Or.inr (Or.inr rfl)
  · cases h

theorem fadeinGo_ok_length {w : ℕ} {chunk : List ℕ} {numsamples increase sv : ℚ}
    {i k : ℕ} {vals : List ℤ}
    (h : Sample.fadeinGo w chunk numsamples increase sv i k = .ok vals) :
    vals.length = k := by
  induction k generalizing i vals with
  | zero =>
    cases h
    rfl
  | succ k ih =>
    unfold Sample.fadeinGo at h
    dsimp only at h
    split at h
    · cases h
    · obtain ⟨a, ha, rfl⟩ := except_map_ok h
      simp [ih ha]

theorem fadeoutGo_ok_length {w : ℕ} {chunk : List ℕ} {numsamples decrease : ℚ}
    {i k : ℕ} {vals : List ℤ}
    (h : Sample.fadeoutGo w chunk numsamples decrease i k = .ok vals) :
    vals.length = k := by
  induction k generalizing i vals with
  | zero =>
    cases h
    rfl
  | succ k ih =>
    unfold Sample.fadeoutGo at h
    dsimp only at h
    split at h
    · cases h
    · obtain ⟨a, ha, rfl⟩ := except_map_ok h
      simp [ih ha]

/-- Formats coincide and the byte length is unchanged: the common
conclusion for in-place transforms that keep the buffer size. -/
def samePlace (s s' : Sample) : Prop :=
  s'.samplewidth = s.samplewidth ∧ s'.samplerate = s.samplerate ∧
    s'.nchannels = s.nchannels ∧ s'.locked = s.locked ∧
    s'.frames.length = s.frames.length

theorem amplify_ok_samePlace {s : Sample} {f : ℚ} {s' : Sample}
    (h : s.amplify f = .ok s') : samePlace s s' := by
  unfold Sample.amplify at h
  split at h
  · cases h
  · obtain ⟨bs, hbs, rfl⟩ := except_map_ok h
    exact ⟨rfl, rfl, rfl, rfl, (audioop_mul_ok_length hbs).1⟩

theorem amplify_max_ok_samePlace {s s' : Sample} (h : s.amplify_max = .ok s') :
    samePlace s s' := by
  unfold Sample.amplify_max at h
  split at h
  · cases h
  · obtain ⟨m, hm, h2⟩ := except_bind_ok h
    split at h2
    · obtain ⟨bs, hbs, rfl⟩ := except_map_ok h2
      exact ⟨rfl, rfl, rfl, rfl, (audioop_mul_ok_length hbs).1⟩
    · cases h2
      exact ⟨rfl, rfl, rfl, rfl, rfl⟩

theorem fadein_ok_samePlace {s : Sample} {T v : ℚ} {s' : Sample}
    (hinv : sampleInvariant s) (h : s.fadein T v = .ok s') : samePlace s s' := by
  unfold Sample.fadein at h
  split at h
  · cases h
  · split at h
    · cases h
    · rename_i c hc
      obtain ⟨vals, hvals, rfl⟩ := except_map_ok h
      have hw : 0 < s.samplewidth := by rcases arraycode_some hc with h1 | h1 | h1 <;> omega
      refine ⟨rfl, rfl, rfl, rfl, ?_⟩
      have hif : (if sysByteorder = "big"
          then audioop_byteswap (bytesOfValues s.samplewidth vals) s.samplewidth
          else bytesOfValues s.samplewidth vals) = bytesOfValues s.samplewidth vals := by
        simp [sysByteorder]
      have hwl : s.samplewidth ∣ s.frames.length :=
        dvd_trans (Dvd.intro s.nchannels rfl) hinv
      have hwi : s.samplewidth ∣ (pyTake s.frames (s.frame_idx (min T s.duration))).length :=
        dvd_length_pyTake hwl (frame_idx_dvd_width s _)
      simp only [hif, List.length_append, length_bytesOfValues, fadeinGo_ok_length hvals,
        pytrunc_nat_div hwi, Int.toNat_ofNat, Nat.mul_div_cancel' hwi]
      rw [length_pyTake, length_pyDrop]
      have := pyIndex_le_length s.frames.length (s.frame_idx (min T s.duration))
      omega

theorem fadeout_ok_samePlace {s : Sample} {T v : ℚ} {s' : Sample}
    (hinv : sampleInvariant s) (h : s.fadeout T v = .ok s') : samePlace s s' := by
  unfold Sample.fadeout at h
  split at h
  · cases h
  · split at h
    · cases h
    · rename_i c hc
      obtain ⟨vals, hvals, rfl⟩ := except_map_ok h
      have hw : 0 < s.samplewidth := by rcases arraycode_some hc with h1 | h1 | h1 <;> omega
      refine ⟨rfl, rfl, rfl, rfl, ?_⟩
      have hif : (if sysByteorder = "big"
          then audioop_byteswap (bytesOfValues s.samplewidth vals) s.samplewidth
          else bytesOfValues s.samplewidth vals) = bytesOfValues s.samplewidth vals := by
        simp [sysByteorder]
      have hwl : s.samplewidth ∣ s.frames.length :=
        dvd_trans (Dvd.intro s.nchannels rfl) hinv
      have hwi : s.samplewidth ∣
          (pyDrop s.frames (s.frame_idx (s.duration - min T s.duration))).length :=
        dvd_length_pyDrop hwl (frame_idx_dvd_width s _)
      simp only [hif, List.length_append, length_bytesOfValues, fadeoutGo_ok_length hvals,
        pytrunc_nat_div hwi, Int.toNat_ofNat, Nat.mul_div_cancel' hwi]
      rw [length_pyTake, length_pyDrop]
      have := pyIndex_le_length s.frames.length
        (s.frame_idx (s.duration - min T s.duration))
      omega

/-! ## Range and success lemmas for the fade loops -/

theorem maxval_nonneg (w : ℕ) : 0 ≤ maxval w := by
  unfold maxval
  have : (0 : ℤ) < 2 ^ (8 * w - 1) := by positivity
  omega

theorem minval_nonpos (w : ℕ) : minval w ≤ 0 := by
  unfold minval
  have : (0 : ℤ) < 2 ^ (8 * w - 1) := by positivity
  omega

theorem floor_le_pytrunc (q : ℚ) : ⌊q⌋ ≤ pytrunc q := by
  unfold pytrunc
  split
  · exact le_refl _
  · exact Int.floor_le_ceil q

theorem pytrunc_le_ceil (q : ℚ) : pytrunc q ≤ ⌈q⌉ := by
  unfold pytrunc
  split
  · exact Int.floor_le_ceil q
  · exact le_refl _

/-- Scaling an in-range sample value by an amplitude in `[0, 1]` and
truncating keeps it in range. -/
theorem pytrunc_amp_range {w : ℕ} {v : ℤ} {amp : ℚ} (hv1 : minval w ≤ v)
    (hv2 : v ≤ maxval w) (ha0 : 0 ≤ amp) (ha1 : amp ≤ 1) :
    minval w ≤ pytrunc ((v : ℚ) * amp) ∧ pytrunc ((v : ℚ) * amp) ≤ maxval w := by
  have hlow : (minval w : ℚ) ≤ (v : ℚ) * amp := by
    rcases le_or_lt 0 (v : ℚ) with hv | hv
    · calc (minval w : ℚ) ≤ 0 := by exact_mod_cast minval_nonpos w
      _ ≤ (v : ℚ) * amp := mul_nonneg hv ha0
    · calc (minval w : ℚ) ≤ (v : ℚ) := by exact_mod_cast hv1
      _ ≤ (v : ℚ) * amp := by nlinarith
  have hhigh : (v : ℚ) * amp ≤ (maxval w : ℚ) := by
    rcases le_or_lt 0 (v : ℚ) with hv | hv
    · calc (v : ℚ) * amp ≤ (v : ℚ) * 1 := by nlinarith
      _ = (v : ℚ) := mul_one _
      _ ≤ (maxval w : ℚ) := by exact_mod_cast hv2
    · calc (v : ℚ) * amp ≤ 0 := by nlinarith
      _ ≤ (maxval w : ℚ) := by exact_mod_cast maxval_nonneg w
  constructor
  · calc minval w ≤ ⌊(v : ℚ) * amp⌋ := Int.le_floor.mpr hlow
    _ ≤ pytrunc ((v : ℚ) * amp) := floor_le_pytrunc _
  · calc pytrunc ((v : ℚ) * amp) ≤ ⌈(v : ℚ) * amp⌉ := pytrunc_le_ceil _
    _ ≤ maxval w := Int.ceil_le.mpr hhigh

theorem getsample_range {w : ℕ} (hw : 0 < w) {chunk : List ℕ} {i : ℕ}
    (hb : ∀ b ∈ chunk, b < 256) (hi : (i + 1) * w ≤ chunk.length) :
    minval w ≤ getsample chunk w i ∧ getsample chunk w i ≤ maxval w := by
  unfold getsample
  have hi2 : i * w + w ≤ chunk.length := by
    rw [Nat.succ_mul] at hi
    exact hi
  apply decodeSample_range hw
  · rw [List.length_take, List.length_drop]
    omega
  · intro b hbmem
    exact hb b (List.mem_of_mem_drop (List.mem_of_mem_take hbmem))

theorem fadeinGo_some {w : ℕ} (hw : 0 < w) {chunk : List ℕ}
    (hb : ∀ b ∈ chunk, b < 256) {numsamples sv increase : ℚ}
    (hnum : numsamples = (chunk.length : ℚ) / (w : ℚ))
    (hinc : increase = 1 - sv) (hsv0 : 0 ≤ sv) (hsv1 : sv ≤ 1) :
    ∀ (k i : ℕ), (i + k) * w ≤ chunk.length →
      ∃ vals, Sample.fadeinGo w chunk numsamples increase sv i k = .ok vals := by
  intro k
  induction k with
  | zero => exact fun i _ => ⟨[], rfl⟩
  | succ k ih =>
    intro i hik
    have hi1 : (i + 1) * w ≤ chunk.length :=
      le_trans (Nat.mul_le_mul_right w (by omega)) hik
    have hlenpos : 0 < chunk.length := by
      have : 1 * w ≤ chunk.length := le_trans (Nat.mul_le_mul_right w (by omega)) hik
      omega
    have hwpos : (0 : ℚ) < (w : ℚ) := by positivity
    have hnums_pos : 0 < numsamples := by
      rw [hnum]
      positivity
    have hi_lt : ((i : ℚ) + 1) * w ≤ (chunk.length : ℚ) := by exact_mod_cast hi1
    have hi_lt_nums : (i : ℚ) < numsamples := by
      rw [hnum, lt_div_iff₀ hwpos]
      calc (i : ℚ) * w < ((i : ℚ) + 1) * w := by nlinarith
      _ ≤ (chunk.length : ℚ) := hi_lt
    have hamp0 : 0 ≤ (i : ℚ) * increase / numsamples + sv := by
      have h1 : 0 ≤ increase := by rw [hinc]; linarith
      positivity
    have hamp1 : (i : ℚ) * increase / numsamples + sv ≤ 1 := by
      have h1 : 0 ≤ increase := by rw [hinc]; linarith
      have h2 : (i : ℚ) * increase / numsamples ≤ increase := by
        rw [div_le_iff₀ hnums_pos]
        nlinarith [(show (0 : ℚ) ≤ (i : ℚ) by positivity), hi_lt_nums]
      rw [hinc] at h2 ⊢
      linarith
    obtain ⟨hg1, hg2⟩ := getsample_range hw hb hi1
    obtain ⟨hr1, hr2⟩ := pytrunc_amp_range hg1 hg2 hamp0 hamp1
    obtain ⟨vals, hvals⟩ := ih (i + 1) (by
      have h := hik
      rw [show i + (k + 1) = i + 1 + k from by omega] at h
      exact h)
    refine ⟨pytrunc ((getsample chunk w i : ℚ) *
      ((i : ℚ) * increase / numsamples + sv)) :: vals, ?_⟩
    unfold Sample.fadeinGo
    dsimp only
    rw [if_neg (by push_neg; omega), hvals]
    rfl

theorem fadeoutGo_some {w : ℕ} (hw : 0 < w) {chunk : List ℕ}
    (hb : ∀ b ∈ chunk, b < 256) {numsamples tv decrease : ℚ}
    (hnum : numsamples = (chunk.length : ℚ) / (w : ℚ))
    (hdec : decrease = 1 - tv) (htv0 : 0 ≤ tv) (htv1 : tv ≤ 1) :
    ∀ (k i : ℕ), (i + k) * w ≤ chunk.length →
      ∃ vals, Sample.fadeoutGo w chunk numsamples decrease i k = .ok vals := by
  intro k
  induction k with
  | zero => exact fun i _ => ⟨[], rfl⟩
  | succ k ih =>
    intro i hik
    have hi1 : (i + 1) * w ≤ chunk.length :=
      le_trans (Nat.mul_le_mul_right w (by omega)) hik
    have hlenpos : 0 < chunk.length := by
      have : 1 * w ≤ chunk.length := le_trans (Nat.mul_le_mul_right w (by omega)) hik
      omega
    have hwpos : (0 : ℚ) < (w : ℚ) := by positivity
    have hnums_pos : 0 < numsamples := by
      rw [hnum]
      positivity
    have hi_lt : ((i : ℚ) + 1) * w ≤ (chunk.length : ℚ) := by exact_mod_cast hi1
    have hi_lt_nums : (i : ℚ) < numsamples := by
      rw [hnum, lt_div_iff₀ hwpos]
      calc (i : ℚ) * w < ((i : ℚ) + 1) * w := by nlinarith
      _ ≤ (chunk.length : ℚ) := hi_lt
    have hfrac : (i : ℚ) / numsamples ≤ 1 := by
      rw [div_le_one hnums_pos]
      exact hi_lt_nums.le
    have hfrac0 : 0 ≤ (i : ℚ) / numsamples := by positivity
    have hdec0 : 0 ≤ decrease := by rw [hdec]; linarith
    have hdec1 : decrease ≤ 1 := by rw [hdec]; linarith
    have hamp0 : 0 ≤ 1 - (i : ℚ) / numsamples * decrease := by nlinarith
    have hamp1 : 1 - (i : ℚ) / numsamples * decrease ≤ 1 := by nlinarith
    obtain ⟨hg1, hg2⟩ := getsample_range hw hb hi1
    obtain ⟨hr1, hr2⟩ := pytrunc_amp_range hg1 hg2 hamp0 hamp1
    obtain ⟨vals, hvals⟩ := ih (i + 1) (by
      have h := hik
      rw [show i + (k + 1) = i + 1 + k from by omega] at h
      exact h)
    refine ⟨pytrunc ((getsample chunk w i : ℚ) *
      (1 - (i : ℚ) / numsamples * decrease)) :: vals, ?_⟩
    unfold Sample.fadeoutGo
    dsimp only
    rw [if_neg (by push_neg; omega), hvals]
    rfl

/-! ## Structural lemmas for the simple `Sample` operations -/

/-- Width, rate and channel count coincide. -/
def goodFormat (s s' : Sample) : Prop :=
  s'.samplewidth = s.samplewidth ∧ s'.samplerate = s.samplerate ∧ s'.nchannels = s.nchannels

theorem clip_ok_inv {s : Sample} {a b : ℚ} {s' : Sample} (hinv : sampleInvariant s)
    (h : s.clip a b = .ok s') : sampleInvariant s' := by
  unfold Sample.clip at h
  split at h
  · cases h
  · split at h
    · cases h
    · cases h
      exact dvd_length_pySlice hinv (frame_idx_dvd s a) (frame_idx_dvd s b)

theorem add_silence_ok {s : Sample} {sec : ℚ} {at_start : Bool} {s' : Sample}
    (h : s.add_silence sec at_start = .ok s') :
    goodFormat s s' ∧ s'.locked = s.locked ∧
      s'.frames.length = s.frames.length + (s.frame_idx sec).toNat ∧
      (sampleInvariant s → sampleInvariant s') := by
  unfold Sample.add_silence at h
  split at h
  · cases h
  · have hdvd : s.samplewidth * s.nchannels ∣ (s.frame_idx sec).toNat :=
      dvd_toNat (frame_idx_dvd s sec)
    split at h
    · cases h
      refine ⟨⟨rfl, rfl, rfl⟩, rfl, by simp [List.length_replicate]; omega, ?_⟩
      intro hi
      unfold sampleInvariant
      simp only [List.length_append, List.length_replicate]
      exact Nat.dvd_add hdvd hi
    · cases h
      refine ⟨⟨rfl, rfl, rfl⟩, rfl, by simp [List.length_replicate], ?_⟩
      intro hi
      unfold sampleInvariant
      simp only [List.length_append, List.length_replicate]
      exact Nat.dvd_add hi hdvd

theorem join_ok {s other : Sample} {s' : Sample} (h : s.join other = .ok s') :
    goodFormat s s' ∧ s'.locked = s.locked ∧
      s'.frames = s.frames ++ other.frames ∧
      s.samplewidth = other.samplewidth ∧ s.samplerate = other.samplerate ∧
      s.nchannels = other.nchannels := by
  unfold Sample.join at h
  split at h
  · cases h
  · split at h
    · cases h
    · rename_i hcompat
      push_neg at hcompat
      cases h
      exact ⟨⟨rfl, rfl, rfl⟩, rfl, rfl, hcompat.1, hcompat.2.1, hcompat.2.2⟩

theorem join_some (s other : Sample) (hl : s.locked = false)
    (h1 : s.samplewidth = other.samplewidth) (h2 : s.samplerate = other.samplerate)
    (h3 : s.nchannels = other.nchannels) :
    s.join other = .ok { s with frames := s.frames ++ other.frames } := by
  unfold Sample.join
  rw [hl, if_neg Bool.false_ne_true, if_neg (by push_neg; exact ⟨h1, h2, h3⟩)]

theorem split_ok {s : Sample} {sec : ℚ} {p : Sample × Sample} (h : s.split sec = .ok p) :
    p.1.frames.length + p.2.frames.length = s.frames.length ∧
      goodFormat s p.1 ∧ goodFormat s p.2 ∧ p.1.locked = s.locked ∧ p.2.locked = false ∧
      (∀ b ∈ p.1.frames, b ∈ s.frames) ∧ (∀ b ∈ p.2.frames, b ∈ s.frames) ∧
      (sampleInvariant s → sampleInvariant p.1 ∧ sampleInvariant p.2) := by
  unfold Sample.split at h
  dsimp only at h
  split at h
  · cases h
  · split at h
    · cases h
      refine ⟨?_, ⟨rfl, rfl, rfl⟩, ⟨rfl, rfl, rfl⟩, rfl, rfl, ?_, ?_, ?_⟩
      · rw [length_pyTake, length_pyDrop]
        have := pyIndex_le_length s.frames.length (s.frame_idx sec)
        omega
      · exact fun b hb => List.mem_of_mem_take hb
      · exact fun b hb => List.mem_of_mem_drop hb
      · intro hi
        exact ⟨dvd_length_pyTake hi (frame_idx_dvd s sec),
          dvd_length_pyDrop hi (frame_idx_dvd s sec)⟩
    · obtain ⟨e, he, rfl⟩ := except_map_ok h
      unfold Sample.from_raw_frames at he
      split at he
      · cases he
      · split at he
        · cases he
        · split at he
          · cases he
          · cases he
            exact ⟨by simp, ⟨rfl, rfl, rfl⟩, ⟨rfl, rfl, rfl⟩, rfl, rfl,
              fun b hb => hb, by simp, fun hi => ⟨hi, by simp [sampleInvariant]⟩⟩

theorem split_some {s : Sample} (sec : ℚ) (hl : s.locked = false)
    (hnch : 1 ≤ s.nchannels ∧ s.nchannels ≤ 2) (hw : 2 ≤ s.samplewidth ∧ s.samplewidth ≤ 4)
    (hr : 1 < s.samplerate) : ∃ p, s.split sec = .ok p := by
  unfold Sample.split
  rw [hl, if_neg Bool.false_ne_true]
  dsimp only
  split
  · exact ⟨_, rfl⟩
  · unfold Sample.from_raw_frames
    rw [if_neg (by push_neg; exact hnch), if_neg (by push_neg; exact hw),
      if_neg (by push_neg; exact hr)]
    exact ⟨_, rfl⟩

theorem amplify_some {s : Sample} (f : ℚ) (hl : s.locked = false)
    (hw : 0 < s.samplewidth) (hd : s.samplewidth ∣ s.frames.length) :
    ∃ s', s.amplify f = .ok s' ∧ (∀ b ∈ s'.frames, b < 256) := by
  unfold Sample.amplify
  rw [hl, if_neg Bool.false_ne_true]
  obtain ⟨out, hout⟩ := audioop_mul_some hw hd f
  rw [hout]
  exact ⟨_, rfl, (audioop_mul_ok_length hout).2⟩

theorem fadein_some {s : Sample} (T v : ℚ) (hl : s.locked = false)
    {c : Char} (hcc : Sample.samplewidths_to_arraycode s.samplewidth = some c)
    (hinv : s.samplewidth ∣ s.frames.length)
    (hb : ∀ x ∈ s.frames, x < 256) (hv0 : 0 ≤ v) (hv1 : v ≤ 1) :
    ∃ s', s.fadein T v = .ok s' := by
  have hw : 0 < s.samplewidth := by rcases arraycode_some hcc with h | h | h <;> omega
  unfold Sample.fadein
  rw [hl, if_neg Bool.false_ne_true, hcc]
  dsimp only
  have hwc : s.samplewidth ∣ (pyTake s.frames (s.frame_idx (min T s.duration))).length :=
    dvd_length_pyTake hinv (frame_idx_dvd_width s _)
  have hbc : ∀ x ∈ pyTake s.frames (s.frame_idx (min T s.duration)), x < 256 :=
    fun x hx => hb x (List.mem_of_mem_take hx)
  obtain ⟨vals, hvals⟩ := fadeinGo_some hw hbc rfl rfl hv0 hv1
    ((pytrunc (((pyTake s.frames (s.frame_idx (min T s.duration))).length : ℚ) /
      (s.samplewidth : ℚ))).toNat) 0
    (by
      rw [pytrunc_nat_div hwc, Int.toNat_ofNat, zero_add]
      exact Nat.div_mul_le_self _ _)
  rw [hvals]
  exact ⟨_, rfl⟩

theorem fadeout_some {s : Sample} (T v : ℚ) (hl : s.locked = false)
    {c : Char} (hcc : Sample.samplewidths_to_arraycode s.samplewidth = some c)
    (hinv : s.samplewidth ∣ s.frames.length)
    (hb : ∀ x ∈ s.frames, x < 256) (hv0 : 0 ≤ v) (hv1 : v ≤ 1) :
    ∃ s', s.fadeout T v = .ok s' := by
  have hw : 0 < s.samplewidth := by rcases arraycode_some hcc with h | h | h <;> omega
  unfold Sample.fadeout
  rw [hl, if_neg Bool.false_ne_true, hcc]
  dsimp only
  have hwc : s.samplewidth ∣
      (pyDrop s.frames (s.frame_idx (s.duration - min T s.duration))).length :=
    dvd_length_pyDrop hinv (frame_idx_dvd_width s _)
  have hbc : ∀ x ∈ pyDrop s.frames (s.frame_idx (s.duration - min T s.duration)), x < 256 :=
    fun x hx => hb x (List.mem_of_mem_drop hx)
  obtain ⟨vals, hvals⟩ := fadeoutGo_some hw hbc rfl rfl hv0 hv1
    ((pytrunc (((pyDrop s.frames (s.frame_idx (s.duration - min T s.duration))).length : ℚ) /
      (s.samplewidth : ℚ))).toNat) 0
    (by
      rw [pytrunc_nat_div hwc, Int.toNat_ofNat, zero_add]
      exact Nat.div_mul_le_self _ _)
  rw [hvals]
  exact ⟨_, rfl⟩

/-! ## Claim C7: `envelope` preserves the total frame count -/

theorem bindOk {α β : Type} (a : α) (f : α → Except PyErr β) :
    ((Except.ok a : Except PyErr α) >>= f) = f a := rfl

theorem arraycode_of_w24 (w : ℕ) (h : w = 2 ∨ w = 4) :
    ∃ c, Sample.samplewidths_to_arraycode w = some c := by
  rcases h with rfl | rfl
  · exact ⟨'h', rfl⟩
  · exact ⟨'i', rfl⟩

set_option maxHeartbeats 1000000 in
/-- C7 (amended): for an unlocked sample of width 2 or 4 (width 3 crashes
in the fades' `get_array` lookup) whose buffer satisfies the length
invariant, `envelope(a, d, sus, r)` with `a, d, r ≥ 0`, `0 ≤ sus ≤ 1` and
`a + d + r` at most the duration succeeds and leaves the total byte
count, the frame count and the duration exactly unchanged. -/
theorem envelope_preserves_length (s : Sample) (a d sus r : ℚ)
    (hl : s.locked = false)
    (hw : s.samplewidth = 2 ∨ s.samplewidth = 4)
    (hnch : 1 ≤ s.nchannels ∧ s.nchannels ≤ 2)
    (hrate : 1 < s.samplerate)
    (hinv : sampleInvariant s)
    (hbytes : ∀ b ∈ s.frames, b < 256)
    (ha : 0 ≤ a) (hd : 0 ≤ d) (hr : 0 ≤ r) (hs0 : 0 ≤ sus) (hs1 : sus ≤ 1)
    (_hsum : a + d + r ≤ s.duration) :
    ∃ s', s.envelope a d sus r = .ok s' ∧
      s'.frames.length = s.frames.length ∧ s'.pyLen = s.pyLen := by
  have hw24 : 2 ≤ s.samplewidth ∧ s.samplewidth ≤ 4 := by rcases hw with h | h <;> omega
  have hwpos : 0 < s.samplewidth := by omega
  unfold Sample.envelope
  rw [hl, if_neg Bool.false_ne_true,
    if_neg (by push_neg; exact ⟨ha, hd, hr⟩),
    if_neg (by push_neg; exact ⟨hs0, hs1⟩)]
  -- step 1 : A / D split
  obtain ⟨⟨A, D⟩, hp1⟩ := split_some a hl hnch hw24 hrate
  obtain ⟨hlen1, hfA, hfD, hlockA, hlockD, hmemA, hmemD, hinv1⟩ := split_ok hp1
  dsimp only at hlen1 hfA hfD hlockA hlockD hmemA hmemD hinv1
  obtain ⟨hinvA, hinvD⟩ := hinv1 hinv
  rw [hp1, bindOk]
  dsimp only
  -- step 2 : D / S split
  obtain ⟨⟨D2, S⟩, hp2⟩ := split_some d (by simpa using hlockD)
    (by rw [hfD.2.2]; exact hnch) (by rw [hfD.1]; exact hw24) (by rw [hfD.2.1]; exact hrate)
  obtain ⟨hlen2, hfD2, hfS, hlockD2, hlockS, hmemD2, hmemS, hinv2⟩ := split_ok hp2
  dsimp only at hlen2 hfD2 hfS hlockD2 hlockS hmemD2 hmemS hinv2
  obtain ⟨hinvD2, hinvS⟩ := hinv2 hinvD
  rw [hp2, bindOk]
  dsimp only
  -- step 3 : optional sustain amplification
  have hSw : S.samplewidth = s.samplewidth := by rw [hfS.1, hfD.1]
  have hSr : S.samplerate = s.samplerate := by rw [hfS.2.1, hfD.2.1]
  have hSn : S.nchannels = s.nchannels := by rw [hfS.2.2, hfD.2.2]
  have hSbytes : ∀ b ∈ S.frames, b < 256 := fun b hb => hbytes b (hmemD _ (hmemS b hb))
  have step3 : ∃ S2 : Sample, (if sus < 1 then S.amplify sus else pure S) = .ok S2 ∧
      S2.samplewidth = S.samplewidth ∧ S2.samplerate = S.samplerate ∧
      S2.nchannels = S.nchannels ∧ S2.locked = S.locked ∧
      S2.frames.length = S.frames.length ∧ (∀ b ∈ S2.frames, b < 256) := by
    by_cases hcase : sus < 1
    · rw [if_pos hcase]
      obtain ⟨S2, hS2, hS2b⟩ := amplify_some sus (by simpa using hlockS)
        (by rw [hSw]; exact hwpos)
        (dvd_trans (Dvd.intro S.nchannels rfl) hinvS)
      obtain ⟨e1, e2, e3, e4, e5⟩ := amplify_ok_samePlace hS2
      exact ⟨S2, hS2, e1, e2, e3, e4, e5, hS2b⟩
    · rw [if_neg hcase]
      exact ⟨S, rfl, rfl, rfl, rfl, rfl, rfl, hSbytes⟩
  obtain ⟨S2, hS2eq, hS2w, hS2r, hS2n, hS2l, hS2len, hS2bytes⟩ := step3
  rw [hS2eq, bindOk]
  -- step 4 : S / R split
  obtain ⟨⟨S3, R⟩, hp4⟩ := split_some (S2.duration - r) (by rw [hS2l]; simpa using hlockS)
    (by rw [hS2n, hSn]; exact hnch) (by rw [hS2w, hSw]; exact hw24)
    (by rw [hS2r, hSr]; exact hrate)
  obtain ⟨hlen4, hfS3, hfR, hlockS3, hlockR, hmemS3, hmemR, hinv4⟩ := split_ok hp4
  dsimp only at hlen4 hfS3 hfR hlockS3 hlockR hmemS3 hmemR hinv4
  obtain ⟨hinvS3, hinvR⟩ := hinv4 (by
    unfold sampleInvariant at hinvS ⊢
    rw [hS2w, hS2n, hS2len]
    exact hinvS)
  rw [hp4, bindOk]
  dsimp only
  -- step 5 : optional attack fade-in on A
  obtain ⟨cA, hcA⟩ := arraycode_of_w24 A.samplewidth (by rw [hfA.1]; exact hw)
  have step5 : ∃ A2 : Sample, (if a > 0 then A.fadein a 0 else pure A) = .ok A2 ∧
      samePlace A A2 := by
    by_cases hcase : a > 0
    · rw [if_pos hcase]
      have hAinvw : A.samplewidth ∣ A.frames.length :=
        dvd_trans (Dvd.intro A.nchannels rfl) hinvA
      obtain ⟨A2, hA2⟩ := fadein_some a 0 (by rw [hlockA]; exact hl) hcA hAinvw
        (fun x hx => hbytes x (hmemA x hx)) le_rfl zero_le_one
      exact ⟨A2, hA2, fadein_ok_samePlace hinvA hA2⟩
    · rw [if_neg hcase]
      exact ⟨A, rfl, rfl, rfl, rfl, rfl, rfl⟩
  obtain ⟨A2, hA2eq, hA2p⟩ := step5
  rw [hA2eq, bindOk]
  -- step 6 : optional decay fade-out on D2
  obtain ⟨cD, hcD⟩ := arraycode_of_w24 D2.samplewidth (by rw [hfD2.1, hfD.1]; exact hw)
  have step6 : ∃ D3 : Sample, (if d > 0 then D2.fadeout d sus else pure D2) = .ok D3 ∧
      samePlace D2 D3 := by
    by_cases hcase : d > 0
    · rw [if_pos hcase]
      have hDinvw : D2.samplewidth ∣ D2.frames.length :=
        dvd_trans (Dvd.intro D2.nchannels rfl) hinvD2
      obtain ⟨D3, hD3⟩ := fadeout_some d sus (by rw [hlockD2]; exact hlockD) hcD hDinvw
        (fun x hx => hbytes x (hmemD x (hmemD2 x hx))) hs0 hs1
      exact ⟨D3, hD3, fadeout_ok_samePlace hinvD2 hD3⟩
    · rw [if_neg hcase]
      exact ⟨D2, rfl, rfl, rfl, rfl, rfl, rfl⟩
  obtain ⟨D3, hD3eq, hD3p⟩ := step6
  rw [hD3eq, bindOk]
  -- step 7 : optional release fade-out on R
  obtain ⟨cR, hcR⟩ := arraycode_of_w24 R.samplewidth (by rw [hfR.1, hS2w, hSw]; exact hw)
  have hinvR2 : sampleInvariant R := hinvR
  have step7 : ∃ R2 : Sample, (if r > 0 then R.fadeout r 0 else pure R) = .ok R2 ∧
      samePlace R R2 := by
    by_cases hcase : r > 0
    · rw [if_pos hcase]
      have hRinvw : R.samplewidth ∣ R.frames.length :=
        dvd_trans (Dvd.intro R.nchannels rfl) hinvR
      obtain ⟨R2, hR2⟩ := fadeout_some r 0 (by simpa using hlockR) hcR hRinvw
        (fun x hx => hS2bytes x (hmemR x hx)) le_rfl zero_le_one
      exact ⟨R2, hR2, fadeout_ok_samePlace hinvR hR2⟩
    · rw [if_neg hcase]
      exact ⟨R, rfl, rfl, rfl, rfl, rfl, rfl⟩
  obtain ⟨R2, hR2eq, hR2p⟩ := step7
  rw [hR2eq, bindOk]
  -- step 8 : the three joins
  have hj1 := join_some A2 D3
    (by rw [hA2p.2.2.2.1, hlockA]; exact hl)
    (by rw [hA2p.1, hD3p.1, hfA.1, hfD2.1, hfD.1])
    (by rw [hA2p.2.1, hD3p.2.1, hfA.2.1, hfD2.2.1, hfD.2.1])
    (by rw [hA2p.2.2.1, hD3p.2.2.1, hfA.2.2, hfD2.2.2, hfD.2.2])
  rw [hj1, bindOk]
  have hj2 := join_some { A2 with frames := A2.frames ++ D3.frames } S3
    (by show A2.locked = false; rw [hA2p.2.2.2.1, hlockA]; exact hl)
    (by show A2.samplewidth = S3.samplewidth
        rw [hA2p.1, hfA.1, hfS3.1, hS2w, hSw])
    (by show A2.samplerate = S3.samplerate
        rw [hA2p.2.1, hfA.2.1, hfS3.2.1, hS2r, hSr])
    (by show A2.nchannels = S3.nchannels
        rw [hA2p.2.2.1, hfA.2.2, hfS3.2.2, hS2n, hSn])
  rw [hj2, bindOk]
  have hj3 := join_some
    { A2 with frames := (A2.frames ++ D3.frames) ++ S3.frames } R2
    (by show A2.locked = false; rw [hA2p.2.2.2.1, hlockA]; exact hl)
    (by show A2.samplewidth = R2.samplewidth
        rw [hA2p.1, hfA.1, hR2p.1, hfR.1, hS2w, hSw])
    (by show A2.samplerate = R2.samplerate
        rw [hA2p.2.1, hfA.2.1, hR2p.2.1, hfR.2.1, hS2r, hSr])
    (by show A2.nchannels = R2.nchannels
        rw [hA2p.2.2.1, hfA.2.2, hR2p.2.2.1, hfR.2.2, hS2n, hSn])
  rw [hj3]
  refine ⟨_, rfl, ?_, ?_⟩
  · show ((A2.frames ++ D3.frames) ++ S3.frames ++ R2.frames).length = s.frames.length
    simp only [List.length_append]
    have e1 : A2.frames.length = A.frames.length := hA2p.2.2.2.2
    have e2 : D3.frames.length = D2.frames.length := hD3p.2.2.2.2
    have e3 : R2.frames.length = R.frames.length := hR2p.2.2.2.2
    omega
  · show ((A2.frames ++ D3.frames) ++ S3.frames ++ R2.frames).length /
        A2.samplewidth / A2.nchannels = s.pyLen
    unfold Sample.pyLen
    have ew : A2.samplewidth = s.samplewidth := by rw [hA2p.1, hfA.1]
    have en : A2.nchannels = s.nchannels := by rw [hA2p.2.2.1, hfA.2.2]
    rw [ew, en]
    congr 2
    simp only [List.length_append]
    have e1 : A2.frames.length = A.frames.length := hA2p.2.2.2.2
    have e2 : D3.frames.length = D2.frames.length := hD3p.2.2.2.2
    have e3 : R2.frames.length = R.frames.length := hR2p.2.2.2.2
    omega

/-- A concrete 16-bit mono sample for the C7 witness: 4 frames at 4 Hz. -/
def envDemo : Sample :=
  { frames := [10, 0, 10, 0, 10, 0, 10, 0], samplewidth := 2, samplerate := 4,
    nchannels := 1, locked := false }

/-- C7 witness: the envelope theorem applied at a concrete sample and
ADSR parameters. -/
theorem envelope_preserves_length_witness :
    envDemo.locked = false ∧ (1 / 4 : ℚ) + 1 / 4 + 1 / 4 ≤ envDemo.duration ∧
      ∃ s', envDemo.envelope (1 / 4) (1 / 4) (1 / 2) (1 / 4) = .ok s' ∧
        s'.frames.length = envDemo.frames.length ∧ s'.pyLen = envDemo.pyLen := by
  have hdur : (1 / 4 : ℚ) + 1 / 4 + 1 / 4 ≤ envDemo.duration := by
    norm_num [Sample.duration, envDemo]
  exact ⟨rfl, hdur,
    envelope_preserves_length envDemo (1 / 4) (1 / 4) (1 / 2) (1 / 4) rfl (Or.inl rfl)
      (by decide) (by decide) (by unfold sampleInvariant; decide) (by decide) (by norm_num)
      (by norm_num) (by norm_num) (by norm_num) (by norm_num) hdur⟩

/-- A 24-bit mono sample: 2 frames at 2 Hz (duration 1 s). -/
def envDemo24 : Sample :=
  { frames := [5, 0, 0, 5, 0, 0], samplewidth := 3, samplerate := 2,
    nchannels := 1, locked := false }

/-- The empty 24-bit sample produced by splitting `envDemo24` at its end. -/
def emptyDemo24 : Sample :=
  { frames := [], samplewidth := 3, samplerate := 2, nchannels := 1, locked := false }

/-- C7 counterexample: on a width-3 (24-bit) sample, `envelope` with a
positive attack (within the duration) crashes with a `KeyError` from the
fade helper's `samplewidths_to_arraycode` lookup (the dict has no key 3),
so the claim as stated — for every sample — fails. -/
theorem envelope_keyerror_on_24bit :
    envDemo24.envelope 1 0 1 0 = .error .keyError := by
  have hsplit1 : envDemo24.split 1 = .ok (envDemo24, emptyDemo24) := by
    unfold Sample.split Sample.from_raw_frames
    norm_num [envDemo24, emptyDemo24, Sample.frame_idx, pytrunc, Except.map]
  have hsplit2 : emptyDemo24.split 0 = .ok (emptyDemo24, emptyDemo24) := by
    unfold Sample.split Sample.from_raw_frames
    norm_num [emptyDemo24, Sample.frame_idx, pytrunc, Except.map]
  have hdur0 : emptyDemo24.duration - 0 = 0 := by
    norm_num [Sample.duration, emptyDemo24]
  have hfade : envDemo24.fadein 1 0 = .error .keyError := by
    unfold Sample.fadein
    norm_num [envDemo24, Sample.samplewidths_to_arraycode]
  unfold Sample.envelope
  rw [show envDemo24.locked = false from rfl, if_neg Bool.false_ne_true,
    if_neg (by push_neg; norm_num), if_neg (by push_neg; norm_num)]
  rw [hsplit1, bindOk]
  dsimp only
  rw [hsplit2, bindOk]
  dsimp only
  rw [if_neg (by norm_num : ¬ ((1 : ℚ) < 1)),
    show (pure emptyDemo24 : Except PyErr Sample) = .ok emptyDemo24 from rfl, bindOk]
  rw [hdur0, hsplit2, bindOk]
  dsimp only
  rw [if_pos (by norm_num : (1 : ℚ) > 0), hfade]
  rfl

/-! ## Claim C2: `mix` padding behavior -/

theorem zipWith_fbound_range (w : ℕ) (l1 l2 : List ℤ) :
    ∀ v ∈ List.zipWith (fun (a b : ℤ) => fbound w ((a : ℚ) + (b : ℚ))) l1 l2,
      minval w ≤ v ∧ v ≤ maxval w := by
  induction l1 generalizing l2 with
  | nil => intro v hv; simp at hv
  | cons a l1 ih =>
    cases l2 with
    | nil => intro v hv; simp at hv
    | cons b l2 =>
      intro v hv
      rw [List.zipWith_cons_cons] at hv
      rcases List.mem_cons.mp hv with h | h
      · exact h ▸ fbound_range w _
      · exact ih l2 v h

theorem sampleValues_append_silent {w : ℕ} {bs : List ℕ} {vs : List ℤ}
    (h : sampleValues w bs = some vs) {d : ℕ} (hd : w ∣ d) :
    sampleValues w (bs ++ List.replicate d 0) = some (vs ++ List.replicate (d / w) 0) := by
  obtain ⟨hw, hdvd, hlen, heq⟩ := sampleValues_ok h
  obtain ⟨n, hn⟩ := hdvd
  obtain ⟨k, hk⟩ := hd
  have hlen2 : (bs ++ List.replicate d 0).length = w * n + w * k := by
    simp [hn, hk]
  have hdvd2 : w ∣ (bs ++ List.replicate d 0).length := by
    rw [hlen2]
    exact dvd_add (dvd_mul_right _ _) (dvd_mul_right _ _)
  rw [sampleValues_some_of hw hdvd2]
  congr 1
  have hq : (bs ++ List.replicate d 0).length / w = n + k := by
    rw [hlen2, ← Nat.mul_add, Nat.mul_div_cancel_left _ hw]
  rw [hq, sampleValuesGo_append (by rw [hn]; ring) (List.replicate d 0) k]
  have hvs : sampleValuesGo w n bs = vs := by
    rw [heq, hn, Nat.mul_div_cancel_left _ hw]
  rw [hvs, sampleValuesGo_silent hw k (fun b hb => List.eq_of_mem_replicate hb),
    hk, Nat.mul_div_cancel_left _ hw]

/-- C2 (amended): for unlocked compatible samples, `mix` with
`pad_shortest` true zero-pads the shorter buffer to the longer length and
adds elementwise (each sum clamped through `fbound`); with `pad_shortest`
false and buffers of different lengths, the operation raises
`audioop.error` — the buffers are not treated at the shorter length. -/
theorem mix_pad_behavior (s other : Sample) (v1 v2 : List ℤ)
    (hl : s.locked = false)
    (hw : s.samplewidth = other.samplewidth)
    (hr : s.samplerate = other.samplerate)
    (hn : s.nchannels = other.nchannels)
    (hv1 : sampleValues s.samplewidth s.frames = some v1)
    (hv2 : sampleValues s.samplewidth other.frames = some v2) :
    (∃ s', s.mix other none true = .ok s' ∧
        s'.samplewidth = s.samplewidth ∧ s'.samplerate = s.samplerate ∧
        s'.nchannels = s.nchannels ∧ s'.locked = false ∧
        s'.frames.length = max s.frames.length other.frames.length ∧
        sampleValues s.samplewidth s'.frames =
          some (List.zipWith (fun (a b : ℤ) => fbound s.samplewidth ((a : ℚ) + (b : ℚ)))
            (v1 ++ List.replicate (v2.length - v1.length) 0)
            (v2 ++ List.replicate (v1.length - v2.length) 0))) ∧
    (s.frames.length ≠ other.frames.length →
      s.mix other none false = .error .audioopError) := by
  obtain ⟨hwpos, hd1, hl1, -⟩ := sampleValues_ok hv1
  obtain ⟨-, hd2, hl2, -⟩ := sampleValues_ok hv2
  obtain ⟨n1, hn1⟩ := hd1
  obtain ⟨n2, hn2⟩ := hd2
  have hv1len : v1.length = n1 := by
    rw [hl1, hn1, Nat.mul_div_cancel_left _ hwpos]
  have hv2len : v2.length = n2 := by
    rw [hl2, hn2, Nat.mul_div_cancel_left _ hwpos]
  constructor
  · unfold Sample.mix
    rw [hl, if_neg Bool.false_ne_true, if_neg (not_not_intro ⟨hw, hr, hn⟩)]
    dsimp only
    rw [if_pos rfl]
    rcases Nat.lt_trichotomy s.frames.length other.frames.length with hlt | heq | hgt
    · -- self shorter: it gets zero-padded
      have hn12 : n1 < n2 := by
        rw [hn1, hn2] at hlt
        exact Nat.lt_of_mul_lt_mul_left hlt
      rw [if_pos hlt]
      have hdd : s.samplewidth ∣ other.frames.length - s.frames.length :=
        Nat.dvd_sub' ⟨n2, hn2⟩ ⟨n1, hn1⟩
      have hdw : (other.frames.length - s.frames.length) / s.samplewidth = n2 - n1 := by
        rw [hn1, hn2, ← Nat.mul_sub, Nat.mul_div_cancel_left _ hwpos]
      have hadd : audioop_add
          (s.frames ++ List.replicate (other.frames.length - s.frames.length) 0)
          other.frames s.samplewidth =
          .ok (bytesOfValues s.samplewidth
            (List.zipWith (fun (a b : ℤ) => fbound s.samplewidth ((a : ℚ) + (b : ℚ)))
              (v1 ++ List.replicate (n2 - n1) 0) v2)) := by
        unfold audioop_add
        have hleq : (s.frames ++
            List.replicate (other.frames.length - s.frames.length) 0).length =
            other.frames.length := by
          simp
          omega
        rw [if_neg (not_not_intro hleq), sampleValues_append_silent hv1 hdd, hv2, hdw]
      rw [hadd]
      refine ⟨_, rfl, rfl, rfl, rfl, rfl, ?_, ?_⟩
      · dsimp only
        have hzl : (List.zipWith (fun (a b : ℤ) => fbound s.samplewidth ((a : ℚ) + (b : ℚ)))
            (v1 ++ List.replicate (n2 - n1) 0) v2).length = n2 := by
          simp only [List.length_zipWith, List.length_append, List.length_replicate,
            hv1len, hv2len]
          omega
        rw [length_bytesOfValues, hzl, hn1, hn2]
        exact (max_eq_right (Nat.mul_le_mul (Nat.le_refl _) (by omega))).symm
      · dsimp only
        rw [sampleValues_bytesOfValues hwpos (zipWith_fbound_range _ _ _)]
        have h1 : v2.length - v1.length = n2 - n1 := by omega
        have h2 : v1.length - v2.length = 0 := by omega
        rw [h1, h2]
        simp
    · -- equal lengths: no padding happens
      have hn12 : n1 = n2 := by
        rw [hn1, hn2] at heq
        exact Nat.eq_of_mul_eq_mul_left hwpos heq
      rw [if_neg (by omega), if_neg (by omega)]
      have hadd : audioop_add s.frames other.frames s.samplewidth =
          .ok (bytesOfValues s.samplewidth
            (List.zipWith (fun (a b : ℤ) => fbound s.samplewidth ((a : ℚ) + (b : ℚ)))
              v1 v2)) := by
        unfold audioop_add
        rw [if_neg (not_not_intro heq), hv1, hv2]
      rw [hadd]
      refine ⟨_, rfl, rfl, rfl, rfl, rfl, ?_, ?_⟩
      · dsimp only
        have hzl : (List.zipWith (fun (a b : ℤ) => fbound s.samplewidth ((a : ℚ) + (b : ℚ)))
            v1 v2).length = n2 := by
          simp only [List.length_zipWith, hv1len, hv2len]
          omega
        rw [length_bytesOfValues, hzl, hn1, hn2, hn12, max_self]
      · dsimp only
        rw [sampleValues_bytesOfValues hwpos (zipWith_fbound_range _ _ _)]
        have h1 : v2.length - v1.length = 0 := by omega
        have h2 : v1.length - v2.length = 0 := by omega
        rw [h1, h2]
        simp
    · -- other shorter: it gets zero-padded
      have hn12 : n2 < n1 := by
        rw [hn1, hn2] at hgt
        exact Nat.lt_of_mul_lt_mul_left hgt
      rw [if_neg (by omega), if_pos hgt]
      have hdd : s.samplewidth ∣ s.frames.length - other.frames.length :=
        Nat.dvd_sub' ⟨n1, hn1⟩ ⟨n2, hn2⟩
      have hdw : (s.frames.length - other.frames.length) / s.samplewidth = n1 - n2 := by
        rw [hn1, hn2, ← Nat.mul_sub, Nat.mul_div_cancel_left _ hwpos]
      have hadd : audioop_add s.frames
          (other.frames ++ List.replicate (s.frames.length - other.frames.length) 0)
          s.samplewidth =
          .ok (bytesOfValues s.samplewidth
            (List.zipWith (fun (a b : ℤ) => fbound s.samplewidth ((a : ℚ) + (b : ℚ)))
              v1 (v2 ++ List.replicate (n1 - n2) 0))) := by
        unfold audioop_add
        have hleq : (other.frames ++
            List.replicate (s.frames.length - other.frames.length) 0).length =
            s.frames.length := by
          simp
          omega
        rw [if_neg (by omega), sampleValues_append_silent hv2 hdd, hv1, hdw]
      rw [hadd]
      refine ⟨_, rfl, rfl, rfl, rfl, rfl, ?_, ?_⟩
      · dsimp only
        have hzl : (List.zipWith (fun (a b : ℤ) => fbound s.samplewidth ((a : ℚ) + (b : ℚ)))
            v1 (v2 ++ List.replicate (n1 - n2) 0)).length = n1 := by
          simp only [List.length_zipWith, List.length_append, List.length_replicate,
            hv1len, hv2len]
          omega
        rw [length_bytesOfValues, hzl, hn1, hn2]
        exact (max_eq_left (Nat.mul_le_mul (Nat.le_refl _) (by omega))).symm
      · dsimp only
        rw [sampleValues_bytesOfValues hwpos (zipWith_fbound_range _ _ _)]
        have h1 : v2.length - v1.length = 0 := by omega
        have h2 : v1.length - v2.length = n1 - n2 := by omega
        rw [h1, h2]
        simp
  · intro hne
    unfold Sample.mix
    rw [hl, if_neg Bool.false_ne_true, if_neg (not_not_intro ⟨hw, hr, hn⟩)]
    dsimp only
    rw [if_neg Bool.false_ne_true]
    have hadd : audioop_add s.frames other.frames s.samplewidth = .error .audioopError := by
      unfold audioop_add
      rw [if_pos hne]
    rw [hadd]
    rfl

/-- A 16-bit mono sample with one frame (value 10). -/
def mixDemo1 : Sample :=
  { frames := [10, 0], samplewidth := 2, samplerate := 4, nchannels := 1, locked := false }

/-- A 16-bit mono sample with two frames (values 5 and 7). -/
def mixDemo2 : Sample :=
  { frames := [5, 0, 7, 0], samplewidth := 2, samplerate := 4, nchannels := 1, locked := false }

/-- C2 witness: the mix-padding theorem applied at two concrete compatible
samples of different lengths. -/
theorem mix_pad_behavior_witness :
    (∃ s', mixDemo1.mix mixDemo2 none true = .ok s' ∧
        s'.samplewidth = mixDemo1.samplewidth ∧ s'.samplerate = mixDemo1.samplerate ∧
        s'.nchannels = mixDemo1.nchannels ∧ s'.locked = false ∧
        s'.frames.length = max mixDemo1.frames.length mixDemo2.frames.length ∧
        sampleValues mixDemo1.samplewidth s'.frames =
          some (List.zipWith
            (fun (a b : ℤ) => fbound mixDemo1.samplewidth ((a : ℚ) + (b : ℚ)))
            ([10] ++ List.replicate ([5, 7].length - [10].length) 0)
            ([5, 7] ++ List.replicate ([10].length - [5, 7].length) 0))) ∧
    (mixDemo1.frames.length ≠ mixDemo2.frames.length →
      mixDemo1.mix mixDemo2 none false = .error .audioopError) :=
  mix_pad_behavior mixDemo1 mixDemo2 [10] [5, 7] rfl rfl rfl rfl (by decide) (by decide)

/-- C2 counterexample: two compatible unlocked samples whose buffers have
different lengths; with `pad_shortest` false the mix does not yield the
elementwise sum over the shorter length — it raises `audioop.error`. -/
theorem mix_nopad_unequal_raises :
    mixDemo1.frames.length ≠ mixDemo2.frames.length ∧
    mixDemo1.mix mixDemo2 none false = .error .audioopError := by decide

/-! ## Claim C3: fades at the buffer ends -/

theorem mem_of_mem_pyTake {α : Type} {l : List α} {i : ℤ} {b : α}
    (h : b ∈ pyTake l i) : b ∈ l := by
  unfold pyTake at h
  exact List.mem_of_mem_take h

theorem mem_of_mem_pyDrop {α : Type} {l : List α} {i : ℤ} {b : α}
    (h : b ∈ pyDrop l i) : b ∈ l := by
  unfold pyDrop at h
  exact List.mem_of_mem_drop h

/-- Unlocked `fadein` on a supported width, written as one `Except.map`. -/
theorem fadein_eq (s : Sample) (T sv : ℚ) {c : Char}
    (hl : s.locked = false)
    (hc : Sample.samplewidths_to_arraycode s.samplewidth = some c) :
    s.fadein T sv =
      (Sample.fadeinGo s.samplewidth (pyTake s.frames (s.frame_idx (min T s.duration)))
          (((pyTake s.frames (s.frame_idx (min T s.duration))).length : ℚ) /
            (s.samplewidth : ℚ)) (1 - sv) sv 0
          (pytrunc (((pyTake s.frames (s.frame_idx (min T s.duration))).length : ℚ) /
            (s.samplewidth : ℚ))).toNat).map
        fun vals =>
          { s with frames := bytesOfValues s.samplewidth vals ++
              pyDrop s.frames (s.frame_idx (min T s.duration)) } := by
  unfold Sample.fadein
  rw [hl, if_neg Bool.false_ne_true, hc]
  dsimp only
  simp only [sysByteorder_ne_big, if_false]

/-- Unlocked `fadeout` on a supported width, written as one `Except.map`. -/
theorem fadeout_eq (s : Sample) (T tv : ℚ) {c : Char}
    (hl : s.locked = false)
    (hc : Sample.samplewidths_to_arraycode s.samplewidth = some c) :
    s.fadeout T tv =
      (Sample.fadeoutGo s.samplewidth
          (pyDrop s.frames (s.frame_idx (s.duration - min T s.duration)))
          (((pyDrop s.frames (s.frame_idx (s.duration - min T s.duration))).length : ℚ) /
            (s.samplewidth : ℚ)) (1 - tv) 0
          (pytrunc (((pyDrop s.frames (s.frame_idx (s.duration - min T s.duration))).length : ℚ) /
            (s.samplewidth : ℚ))).toNat).map
        fun vals =>
          { s with frames := pyTake s.frames (s.frame_idx (s.duration - min T s.duration)) ++
              bytesOfValues s.samplewidth vals } := by
  unfold Sample.fadeout
  rw [hl, if_neg Bool.false_ne_true, hc]
  dsimp only
  simp only [sysByteorder_ne_big, if_false]

/-- The first value a `fadein` loop that starts at volume 0 produces is 0. -/
theorem fadeinGo_head_zero {w : ℕ} {chunk : List ℕ} {num inc : ℚ} {k : ℕ} {vals : List ℤ}
    (h : Sample.fadeinGo w chunk num inc 0 0 (k + 1) = .ok vals) :
    ∃ rest, vals = 0 :: rest := by
  unfold Sample.fadeinGo at h
  dsimp only at h
  simp only [Nat.cast_zero, zero_mul, zero_div, zero_add, mul_zero, pytrunc_zero] at h
  rw [if_neg (by push_neg; exact ⟨minval_nonpos w, maxval_nonneg w⟩)] at h
  obtain ⟨a, ha, rfl⟩ := except_map_ok h
  exact ⟨a, rfl⟩

/-- A `fadeout` loop keeps a zero first value: the first amplitude is 1. -/
theorem fadeoutGo_head_zero {w : ℕ} {chunk : List ℕ} {num dec : ℚ} {k : ℕ} {vals : List ℤ}
    (hg : getsample chunk w 0 = 0)
    (h : Sample.fadeoutGo w chunk num dec 0 (k + 1) = .ok vals) :
    ∃ rest, vals = 0 :: rest := by
  unfold Sample.fadeoutGo at h
  dsimp only at h
  rw [hg] at h
  simp only [Int.cast_zero, zero_mul, pytrunc_zero] at h
  rw [if_neg (by push_neg; exact ⟨minval_nonpos w, maxval_nonneg w⟩)] at h
  obtain ⟨a, ha, rfl⟩ := except_map_ok h
  exact ⟨a, rfl⟩

theorem take_bytesOfValues_zero_head (w : ℕ) (rest : List ℤ) :
    (bytesOfValues w ((0 : ℤ) :: rest)).take w = List.replicate w 0 := by
  show (encodeSample w 0 ++ bytesOfValues w rest).take w = _
  rw [encodeSample_zero]
  exact List.take_left' (List.length_replicate w 0)

theorem getsample_zero_head {w : ℕ} (hw : 0 < w) {bs : List ℕ}
    (hhead : bs.take w = List.replicate w 0) : getsample bs w 0 = 0 := by
  unfold getsample
  rw [Nat.zero_mul, List.drop_zero, hhead]
  exact decodeSample_zero hw fun b hb => List.eq_of_mem_replicate hb

/-- C3 (amended): on every unlocked sample of a supported width whose
`fadein` region covers at least one sample, `fadein(T, 0)` followed by
`fadeout(T, 0)` succeeds, keeps the byte length, and leaves the first
sample value exactly 0.  (The last value is in general not 0: the
fade-out amplitude ramp `1 - i/numsamples` never reaches 0, see the
counterexample.) -/
theorem fadein_then_fadeout_first_zero (s : Sample) (T : ℚ)
    (hwmem : s.samplewidth = 1 ∨ s.samplewidth = 2 ∨ s.samplewidth = 4)
    (hl : s.locked = false)
    (hd : s.samplewidth ∣ s.frames.length)
    (hlen : s.samplewidth ≤ s.frames.length)
    (hb : ∀ b ∈ s.frames, b < 256)
    (hfi : (s.samplewidth : ℤ) ≤ s.frame_idx (min T s.duration)) :
    ∃ s1 s2, s.fadein T 0 = .ok s1 ∧ s1.fadeout T 0 = .ok s2 ∧
      s2.frames.length = s.frames.length ∧
      getsample s2.frames s.samplewidth 0 = 0 := by
  have hw : 0 < s.samplewidth := by rcases hwmem with h | h | h <;> omega
  obtain ⟨c, hc⟩ : ∃ c, Sample.samplewidths_to_arraycode s.samplewidth = some c := by
    rcases hwmem with h | h | h <;> rw [h] <;> exact ⟨_, rfl⟩
  set i1 : ℤ := s.frame_idx (min T s.duration) with hi1def
  set chunk1 : List ℕ := pyTake s.frames i1 with hchunk1def
  have hi1nn : 0 ≤ i1 := le_trans (by positivity) hfi
  have hi1d : (s.samplewidth : ℤ) ∣ i1 := frame_idx_dvd_width s (min T s.duration)
  have hc1len : chunk1.length = min i1.toNat s.frames.length := by
    rw [hchunk1def, length_pyTake, pyIndex, if_neg (not_lt.mpr hi1nn)]
  have hc1d : s.samplewidth ∣ chunk1.length := by
    rw [hchunk1def]
    exact dvd_length_pyTake hd hi1d
  have hc1w : s.samplewidth ≤ chunk1.length := by
    rw [hc1len]
    refine le_min ?_ hlen
    omega
  have hcount1 : (pytrunc ((chunk1.length : ℚ) / (s.samplewidth : ℚ))).toNat
      = chunk1.length / s.samplewidth := by
    rw [pytrunc_nat_div hc1d, Int.toNat_natCast]
  obtain ⟨k1, hk1⟩ : ∃ k, chunk1.length / s.samplewidth = k + 1 := by
    refine ⟨chunk1.length / s.samplewidth - 1, ?_⟩
    have h1 : 1 ≤ chunk1.length / s.samplewidth :=
      (Nat.le_div_iff_mul_le hw).2 (by omega)
    omega
  have hb1 : ∀ b ∈ chunk1, b < 256 :=
    fun b hbm => hb b (mem_of_mem_pyTake (hchunk1def ▸ hbm))
  obtain ⟨vals1, hvals1⟩ := fadeinGo_some hw hb1 rfl rfl le_rfl zero_le_one (k1 + 1) 0
    (by rw [Nat.zero_add, ← hk1, Nat.div_mul_cancel hc1d])
  have hlen1 : vals1.length = k1 + 1 := fadeinGo_ok_length hvals1
  obtain ⟨rest1, hrest1⟩ := fadeinGo_head_zero hvals1
  have hfadein : s.fadein T 0 =
      .ok { s with frames := bytesOfValues s.samplewidth vals1 ++ pyDrop s.frames i1 } := by
    rw [fadein_eq s T 0 hl hc, ← hi1def, ← hchunk1def, hcount1, hk1, hvals1]
    rfl
  set s1 : Sample :=
    { s with frames := bytesOfValues s.samplewidth vals1 ++ pyDrop s.frames i1 } with hs1def
  have hpi1 : pyIndex s.frames.length i1 = chunk1.length := by
    rw [hchunk1def, length_pyTake]
  have hc1mul : s.samplewidth * (k1 + 1) = chunk1.length := by
    rw [← hk1, Nat.mul_div_cancel' hc1d]
  have hc1le : chunk1.length ≤ s.frames.length := by
    rw [hc1len]
    omega
  have hs1len : s1.frames.length = s.frames.length := by
    show (bytesOfValues s.samplewidth vals1 ++ pyDrop s.frames i1).length = _
    rw [List.length_append, length_bytesOfValues, hlen1, length_pyDrop, hpi1]
    omega
  have htake1 : s1.frames.take s.samplewidth = List.replicate s.samplewidth 0 := by
    show (bytesOfValues s.samplewidth vals1 ++ pyDrop s.frames i1).take s.samplewidth = _
    rw [List.take_append_of_le_length
      (by rw [length_bytesOfValues, hlen1]; calc s.samplewidth
            = s.samplewidth * 1 := (Nat.mul_one _).symm
          _ ≤ s.samplewidth * (k1 + 1) := Nat.mul_le_mul (Nat.le_refl _) (by omega)),
      hrest1, take_bytesOfValues_zero_head]
  have hl1 : s1.locked = false := hl
  have hb1' : ∀ b ∈ s1.frames, b < 256 := by
    intro b hbm
    rcases List.mem_append.mp hbm with h | h
    · exact bytesOfValues_lt _ _ b h
    · exact hb b (mem_of_mem_pyDrop h)
  set i2 : ℤ := s1.frame_idx (s1.duration - min T s1.duration) with hi2def
  have hi2nn : 0 ≤ i2 := by
    rw [hi2def]
    unfold Sample.frame_idx
    have hdd : 0 ≤ s1.duration - min T s1.duration := by
      have hmin : min T s1.duration ≤ s1.duration := min_le_right _ _
      linarith
    have h0 : 0 ≤ (s1.samplerate : ℚ) * (s1.duration - min T s1.duration) := by positivity
    have hpt := pytrunc_nonneg h0
    exact mul_nonneg (mul_nonneg (by positivity) (by positivity)) hpt
  have hi2d : (s.samplewidth : ℤ) ∣ i2 := frame_idx_dvd_width s1 _
  have hs1d : s.samplewidth ∣ s1.frames.length := by
    rw [hs1len]
    exact hd
  set chunk2 : List ℕ := pyDrop s1.frames i2 with hchunk2def
  have hc2d : s.samplewidth ∣ chunk2.length := by
    rw [hchunk2def]
    exact dvd_length_pyDrop hs1d hi2d
  have hcount2 : (pytrunc ((chunk2.length : ℚ) / (s.samplewidth : ℚ))).toNat
      = chunk2.length / s.samplewidth := by
    rw [pytrunc_nat_div hc2d, Int.toNat_natCast]
  have hc2len : chunk2.length = s1.frames.length - pyIndex s1.frames.length i2 := by
    rw [hchunk2def, length_pyDrop]
  have hpiY : pyIndex s1.frames.length i2 ≤ s1.frames.length := pyIndex_le_length _ _
  have hpy2 : pyIndex s1.frames.length i2 = 0 ∨
      s.samplewidth ≤ pyIndex s1.frames.length i2 := by
    obtain ⟨m, hm⟩ := dvd_pyIndex hs1d hi2d
    rcases Nat.eq_zero_or_pos m with h0 | h0
    · left
      rw [hm, h0, Nat.mul_zero]
    · right
      rw [hm]
      calc s.samplewidth = s.samplewidth * 1 := (Nat.mul_one _).symm
      _ ≤ s.samplewidth * m := Nat.mul_le_mul (Nat.le_refl _) h0
  have hb2 : ∀ b ∈ chunk2, b < 256 :=
    fun b hbm => hb1' b (mem_of_mem_pyDrop (hchunk2def ▸ hbm))
  obtain ⟨vals2, hvals2⟩ := fadeoutGo_some hw hb2 rfl rfl le_rfl zero_le_one
    (chunk2.length / s.samplewidth) 0
    (by rw [Nat.zero_add, Nat.div_mul_cancel hc2d])
  have hlen2 : vals2.length = chunk2.length / s.samplewidth := fadeoutGo_ok_length hvals2
  have hfadeout : s1.fadeout T 0 =
      .ok { s1 with frames := pyTake s1.frames i2 ++ bytesOfValues s.samplewidth vals2 } := by
    rw [fadeout_eq s1 T 0 hl1 hc, ← hi2def, ← hchunk2def, hcount2, hvals2]
    rfl
  refine ⟨s1, _, hfadein, hfadeout, ?_, ?_⟩
  · show (pyTake s1.frames i2 ++ bytesOfValues s.samplewidth vals2).length = _
    rw [List.length_append, length_pyTake, length_bytesOfValues, hlen2,
      Nat.mul_div_cancel' hc2d, hc2len, ← hs1len]
    omega
  · show getsample (pyTake s1.frames i2 ++ bytesOfValues s.samplewidth vals2)
      s.samplewidth 0 = 0
    rcases hpy2 with hz | hge
    · -- the whole buffer is faded out again; its first value is already 0
      have hpt0 : pyTake s1.frames i2 = [] := by
        unfold pyTake
        rw [hz, List.take_zero]
      have hchunk2_eq : chunk2 = s1.frames := by
        rw [hchunk2def]
        unfold pyDrop
        rw [hz, List.drop_zero]
      have hg0 : getsample chunk2 s.samplewidth 0 = 0 := by
        rw [hchunk2_eq]
        exact getsample_zero_head hw htake1
      obtain ⟨k2, hk2⟩ : ∃ k, chunk2.length / s.samplewidth = k + 1 := by
        refine ⟨chunk2.length / s.samplewidth - 1, ?_⟩
        have h1 : 1 ≤ chunk2.length / s.samplewidth :=
          (Nat.le_div_iff_mul_le hw).2 (by rw [hchunk2_eq, hs1len]; omega)
        omega
      obtain ⟨rest2, hrest2⟩ := fadeoutGo_head_zero hg0 (hk2 ▸ hvals2)
      rw [hpt0, List.nil_append]
      exact getsample_zero_head hw (hrest2 ▸ take_bytesOfValues_zero_head _ _)
    · -- the zeroed first sample survives untouched in the kept prefix
      have htk : (pyTake s1.frames i2 ++ bytesOfValues s.samplewidth vals2).take
          s.samplewidth = List.replicate s.samplewidth 0 := by
        rw [List.take_append_of_le_length (by rw [length_pyTake]; exact hge)]
        show (List.take (pyIndex s1.frames.length i2) s1.frames).take s.samplewidth = _
        rw [List.take_take, min_eq_left hge, htake1]
      exact getsample_zero_head hw htk

theorem pytrunc_intCast (a : ℤ) : pytrunc ((a : ℚ)) = a := by
  unfold pytrunc
  split
  · exact Int.floor_intCast a
  · exact Int.ceil_intCast a

theorem fadeinGo_zero (w : ℕ) (chunk : List ℕ) (num inc sv : ℚ) (i : ℕ) :
    Sample.fadeinGo w chunk num inc sv i 0 = .ok [] := rfl

theorem fadeinGo_succ (w : ℕ) (chunk : List ℕ) (num inc sv : ℚ) (i k : ℕ) :
    Sample.fadeinGo w chunk num inc sv i (k + 1) =
      (if pytrunc ((getsample chunk w i : ℚ) * ((i : ℚ) * inc / num + sv)) < minval w ∨
          maxval w < pytrunc ((getsample chunk w i : ℚ) * ((i : ℚ) * inc / num + sv))
        then .error .overflowError
        else (Sample.fadeinGo w chunk num inc sv (i + 1) k).map
          fun vs => pytrunc ((getsample chunk w i : ℚ) * ((i : ℚ) * inc / num + sv)) :: vs) :=
  rfl

theorem fadeoutGo_zero (w : ℕ) (chunk : List ℕ) (num dec : ℚ) (i : ℕ) :
    Sample.fadeoutGo w chunk num dec i 0 = .ok [] := rfl

theorem fadeoutGo_succ (w : ℕ) (chunk : List ℕ) (num dec : ℚ) (i k : ℕ) :
    Sample.fadeoutGo w chunk num dec i (k + 1) =
      (if pytrunc ((getsample chunk w i : ℚ) * (1 - (i : ℚ) / num * dec)) < minval w ∨
          maxval w < pytrunc ((getsample chunk w i : ℚ) * (1 - (i : ℚ) / num * dec))
        then .error .overflowError
        else (Sample.fadeoutGo w chunk num dec (i + 1) k).map
          fun vs => pytrunc ((getsample chunk w i : ℚ) * (1 - (i : ℚ) / num * dec)) :: vs) :=
  rfl

/-- A constant-amplitude 16-bit mono sample: two frames of value 100 at
2 Hz, so its duration is 1 second. -/
def fadeCex : Sample :=
  { frames := [100, 0, 100, 0], samplewidth := 2, samplerate := 2,
    nchannels := 1, locked := false }

/-- `fadeCex` after `fadein(1, 0)`: values `[0, 50]`. -/
def fadeMid : Sample :=
  { frames := [0, 0, 50, 0], samplewidth := 2, samplerate := 2,
    nchannels := 1, locked := false }

theorem fadeCex_fadein : fadeCex.fadein 1 0 = .ok fadeMid := by
  have hdur : fadeCex.duration = 1 := by
    unfold Sample.duration
    norm_num [fadeCex]
  have hfi4 : fadeCex.frame_idx (min 1 fadeCex.duration) = 4 := by
    rw [hdur, min_self]
    unfold Sample.frame_idx
    rw [show (fadeCex.samplerate : ℚ) * 1 = ((2 : ℤ) : ℚ) by norm_num [fadeCex],
      pytrunc_intCast]
    norm_num [fadeCex]
  have hv0 : pytrunc ((getsample [100, 0, 100, 0] 2 0 : ℚ) *
      (((0 : ℕ) : ℚ) * (1 - 0) / 2 + 0)) = 0 := by
    rw [show ((getsample [100, 0, 100, 0] 2 0 : ℤ) : ℚ) *
        (((0 : ℕ) : ℚ) * (1 - 0) / 2 + 0) = ((0 : ℤ) : ℚ) by push_cast; ring,
      pytrunc_intCast]
  have hv1 : pytrunc ((getsample [100, 0, 100, 0] 2 1 : ℚ) *
      (((1 : ℕ) : ℚ) * (1 - 0) / 2 + 0)) = 50 := by
    rw [show getsample [100, 0, 100, 0] 2 1 = 100 from by decide]
    rw [show ((100 : ℤ) : ℚ) * (((1 : ℕ) : ℚ) * (1 - 0) / 2 + 0) = ((50 : ℤ) : ℚ) by
        push_cast; norm_num,
      pytrunc_intCast]
  have hloopIn : Sample.fadeinGo 2 [100, 0, 100, 0] 2 (1 - 0) 0 0 2 = .ok [0, 50] := by
    rw [fadeinGo_succ, hv0, if_neg (by decide), fadeinGo_succ, hv1, if_neg (by decide),
      fadeinGo_zero]
    rfl
  rw [fadein_eq fadeCex 1 0 rfl rfl, hfi4,
    show pyTake fadeCex.frames (4 : ℤ) = [100, 0, 100, 0] from by decide,
    show pyDrop fadeCex.frames (4 : ℤ) = ([] : List ℕ) from by decide,
    show fadeCex.samplewidth = 2 from rfl,
    show (([100, 0, 100, 0].length : ℚ)) / ((2 : ℕ) : ℚ) = (2 : ℚ) by norm_num,
    show (pytrunc (2 : ℚ)).toNat = 2 by
      rw [show (2 : ℚ) = ((2 : ℤ) : ℚ) by norm_num, pytrunc_intCast]
      rfl,
    hloopIn]
  rfl

/-- `fadeMid` after `fadeout(1, 0)`: values `[0, 25]`. -/
def fadeFin : Sample :=
  { frames := [0, 0, 25, 0], samplewidth := 2, samplerate := 2,
    nchannels := 1, locked := false }

theorem fadeMid_fadeout : fadeMid.fadeout 1 0 = .ok fadeFin := by
  have hdur : fadeMid.duration = 1 := by
    unfold Sample.duration
    norm_num [fadeMid]
  have hfo0 : fadeMid.frame_idx (fadeMid.duration - min 1 fadeMid.duration) = 0 := by
    rw [hdur, min_self, sub_self]
    unfold Sample.frame_idx
    rw [show (fadeMid.samplerate : ℚ) * 0 = ((0 : ℤ) : ℚ) by norm_num, pytrunc_intCast]
    norm_num
  have hv0 : pytrunc ((getsample [0, 0, 50, 0] 2 0 : ℚ) *
      (1 - ((0 : ℕ) : ℚ) / 2 * (1 - 0))) = 0 := by
    rw [show ((getsample [0, 0, 50, 0] 2 0 : ℤ) : ℚ) *
        (1 - ((0 : ℕ) : ℚ) / 2 * (1 - 0)) = ((getsample [0, 0, 50, 0] 2 0 : ℤ) : ℚ) by
        push_cast; ring,
      pytrunc_intCast]
    decide
  have hv1 : pytrunc ((getsample [0, 0, 50, 0] 2 1 : ℚ) *
      (1 - ((1 : ℕ) : ℚ) / 2 * (1 - 0))) = 25 := by
    rw [show getsample [0, 0, 50, 0] 2 1 = 50 from by decide]
    rw [show ((50 : ℤ) : ℚ) * (1 - ((1 : ℕ) : ℚ) / 2 * (1 - 0)) = ((25 : ℤ) : ℚ) by
        push_cast; norm_num,
      pytrunc_intCast]
  have hloopOut : Sample.fadeoutGo 2 [0, 0, 50, 0] 2 (1 - 0) 0 2 = .ok [0, 25] := by
    rw [fadeoutGo_succ, hv0, if_neg (by decide), fadeoutGo_succ, hv1, if_neg (by decide),
      fadeoutGo_zero]
    rfl
  rw [fadeout_eq fadeMid 1 0 rfl rfl, hfo0,
    show pyDrop fadeMid.frames (0 : ℤ) = [0, 0, 50, 0] from by decide,
    show pyTake fadeMid.frames (0 : ℤ) = ([] : List ℕ) from by decide,
    show fadeMid.samplewidth = 2 from rfl,
    show (([0, 0, 50, 0].length : ℚ)) / ((2 : ℕ) : ℚ) = (2 : ℚ) by norm_num,
    show (pytrunc (2 : ℚ)).toNat = 2 by
      rw [show (2 : ℚ) = ((2 : ℤ) : ℚ) by norm_num, pytrunc_intCast]
      rfl,
    hloopOut]
  rfl

/-- C3 counterexample: on the constant-amplitude sample `fadeCex`
(values `[100, 100]`, duration 1 s), `fadein(1)` followed by `fadeout(1)`
yields the values `[0, 25]`: the first sample value is 0 but the last is
25, not 0, because the fade-out ramp `1 - i/numsamples` never reaches 0
on the last sample. -/
theorem fadein_then_fadeout_last_nonzero :
    ∃ s1 s2, fadeCex.fadein 1 0 = .ok s1 ∧ s1.fadeout 1 0 = .ok s2 ∧
      s2.frames = [0, 0, 25, 0] ∧
      getsample s2.frames fadeCex.samplewidth (s2.pyLen - 1) = 25 := by
  refine ⟨fadeMid, fadeFin, fadeCex_fadein, fadeMid_fadeout, rfl, ?_⟩
  decide

/-- C3 witness: the first-sample theorem applied at the concrete constant
sample `fadeCex` with a one-second fade. -/
theorem fadein_then_fadeout_first_zero_witness :
    ∃ s1 s2, fadeCex.fadein 1 0 = .ok s1 ∧ s1.fadeout 1 0 = .ok s2 ∧
      s2.frames.length = fadeCex.frames.length ∧
      getsample s2.frames fadeCex.samplewidth 0 = 0 :=
  fadein_then_fadeout_first_zero fadeCex 1 (Or.inr (Or.inl rfl)) rfl (by decide)
    (by decide) (by decide)
    (by
      have hdur : fadeCex.duration = 1 := by
        unfold Sample.duration
        norm_num [fadeCex]
      rw [hdur, min_self]
      unfold Sample.frame_idx
      rw [show (fadeCex.samplerate : ℚ) * 1 = ((2 : ℤ) : ℚ) by norm_num [fadeCex],
        pytrunc_intCast]
      norm_num [fadeCex])

/-! ## Claim C6: `amplify_max` -/

/-- C6: `amplify_max` on an unlocked sample succeeds; a silent buffer is
returned unchanged, and a buffer with positive peak is rescaled so that
its peak magnitude is exactly `2^(8*width-1) - 2` — the maximum
representable value minus a safety margin — and in particular never
exceeds the representable range. -/
theorem amplify_max_peak (s : Sample) (vs : List ℤ)
    (hl : s.locked = false)
    (hv : sampleValues s.samplewidth s.frames = some vs) :
    ∃ s', s.amplify_max = .ok s' ∧
      (listAbsMax vs = 0 → s' = s) ∧
      (0 < listAbsMax vs →
        ∃ vs', sampleValues s.samplewidth s'.frames = some vs' ∧
          listAbsMax vs' = 2 ^ (8 * s.samplewidth - 1) - 2 ∧
          listAbsMax vs' ≤ maxval s.samplewidth) := by
  obtain ⟨hw, hd, hlenq, hveq⟩ := sampleValues_ok hv
  have hpow : (2 : ℤ) ^ 7 ≤ 2 ^ (8 * s.samplewidth - 1) :=
    pow_le_pow_right₀ (by norm_num) (by omega)
  have htgt0 : (0 : ℤ) < 2 ^ (8 * s.samplewidth - 1) - 2 := by omega
  have htgtmax : 2 ^ (8 * s.samplewidth - 1) - 2 ≤ maxval s.samplewidth := by
    unfold maxval
    omega
  have hminv : minval s.samplewidth + 1 ≤ -(2 ^ (8 * s.samplewidth - 1) - 2) := by
    unfold minval
    omega
  unfold Sample.amplify_max audioop_max
  rw [hl, if_neg Bool.false_ne_true, hv]
  dsimp only [Except.bind]
  rcases (listAbsMax_nonneg vs).eq_or_lt with hz | hpos
  · rw [if_neg (by omega)]
    exact ⟨s, rfl, fun _ => rfl, fun hp => absurd hp (by omega)⟩
  · rw [if_pos hpos]
    unfold audioop_mul
    rw [hv]
    dsimp only
    refine ⟨_, rfl, fun h0 => absurd h0 (by omega), fun _ => ?_⟩
    set M : ℤ := listAbsMax vs with hMdef
    set tgt : ℤ := 2 ^ (8 * s.samplewidth - 1) - 2 with htgtdef
    have hMq : (0 : ℚ) < (M : ℚ) := by exact_mod_cast hpos
    have hbound : ∀ v ∈ vs,
        |fbound s.samplewidth ((v : ℚ) * ((tgt : ℚ) / (M : ℚ)))| ≤ tgt := by
      intro v hvm
      have hvM : |v| ≤ M := le_listAbsMax hvm
      have hvMq : |(v : ℚ)| ≤ (M : ℚ) := by
        rw [← Int.cast_abs]
        exact_mod_cast hvM
      have habs : |(v : ℚ) * ((tgt : ℚ) / (M : ℚ))| ≤ (tgt : ℚ) := by
        rw [abs_mul, abs_div, abs_of_pos (show (0 : ℚ) < (tgt : ℚ) by exact_mod_cast htgt0),
          abs_of_pos hMq]
        calc |(v : ℚ)| * ((tgt : ℚ) / (M : ℚ)) ≤ (M : ℚ) * ((tgt : ℚ) / (M : ℚ)) :=
              mul_le_mul_of_nonneg_right hvMq (by positivity)
        _ = (tgt : ℚ) := by field_simp
      obtain ⟨hq1, hq2⟩ := abs_le.mp habs
      have hfl : fbound s.samplewidth ((v : ℚ) * ((tgt : ℚ) / (M : ℚ))) =
          ⌊(v : ℚ) * ((tgt : ℚ) / (M : ℚ))⌋ := by
        apply fbound_eq_floor
        · have h1 : ((minval s.samplewidth : ℤ) : ℚ) + 1 ≤ ((-tgt : ℤ) : ℚ) := by
            exact_mod_cast hminv
          push_cast at h1 ⊢
          linarith
        · have h2 : ((tgt : ℤ) : ℚ) ≤ ((maxval s.samplewidth : ℤ) : ℚ) := by
            exact_mod_cast htgtmax
          linarith
      rw [hfl]
      rw [abs_le]
      constructor
      · have := Int.floor_le_floor (show ((-tgt : ℤ) : ℚ) ≤ (v : ℚ) * ((tgt : ℚ) / (M : ℚ)) by
          push_cast
          linarith)
        rwa [Int.floor_intCast] at this
      · have := Int.floor_le_floor (show (v : ℚ) * ((tgt : ℚ) / (M : ℚ)) ≤ ((tgt : ℤ) : ℚ) by
          exact_mod_cast hq2)
        rwa [Int.floor_intCast] at this
    obtain ⟨v0, hv0m, hv0abs⟩ : ∃ v ∈ vs, |v| = M := by
      rcases listAbsMax_eq_zero_or_mem vs with h | h
      · omega
      · exact h
    have hpeak : |fbound s.samplewidth ((v0 : ℚ) * ((tgt : ℚ) / (M : ℚ)))| = tgt := by
      rcases (abs_eq (le_of_lt hpos)).mp hv0abs with h | h
      · subst h
        rw [show ((M : ℤ) : ℚ) * ((tgt : ℚ) / (M : ℚ)) = ((tgt : ℤ) : ℚ) by field_simp]
        rw [fbound_intCast (by have := minval_nonpos s.samplewidth; omega) htgtmax]
        exact abs_of_pos htgt0
      · subst h
        rw [show (((-M : ℤ)) : ℚ) * ((tgt : ℚ) / (M : ℚ)) = ((-tgt : ℤ) : ℚ) by
          push_cast
          field_simp
          ring]
        rw [fbound_intCast (by omega) (by have := maxval_nonneg s.samplewidth; omega)]
        rw [abs_neg]
        exact abs_of_pos htgt0
    refine ⟨_, sampleValues_bytesOfValues hw ?_, ?_, ?_⟩
    · intro x hx
      obtain ⟨v, -, rfl⟩ := List.mem_map.mp hx
      exact fbound_range _ _
    · apply le_antisymm
      · apply listAbsMax_le (le_of_lt htgt0)
        intro x hx
        obtain ⟨v, hvm, rfl⟩ := List.mem_map.mp hx
        exact hbound v hvm
      · calc tgt = |fbound s.samplewidth ((v0 : ℚ) * ((tgt : ℚ) / (M : ℚ)))| := hpeak.symm
        _ ≤ _ := le_listAbsMax (List.mem_map.mpr ⟨v0, hv0m, rfl⟩)
    · apply le_trans _ htgtmax
      apply listAbsMax_le (le_of_lt htgt0)
      intro x hx
      obtain ⟨v, hvm, rfl⟩ := List.mem_map.mp hx
      exact hbound v hvm

/-- A 16-bit mono sample with values 0 and 1000. -/
def ampDemo : Sample :=
  { frames := [0, 0, 232, 3], samplewidth := 2, samplerate := 4,
    nchannels := 1, locked := false }

/-- C6 witness: the `amplify_max` theorem applied at a concrete 16-bit
sample with peak 1000; the rescaled peak is `2^15 - 2 = 32766`. -/
theorem amplify_max_peak_witness :
    ∃ s', ampDemo.amplify_max = .ok s' ∧
      (listAbsMax [0, 1000] = 0 → s' = ampDemo) ∧
      (0 < listAbsMax [0, 1000] →
        ∃ vs', sampleValues ampDemo.samplewidth s'.frames = some vs' ∧
          listAbsMax vs' = 2 ^ (8 * ampDemo.samplewidth - 1) - 2 ∧
          listAbsMax vs' ≤ maxval ampDemo.samplewidth) :=
  amplify_max_peak ampDemo [0, 1000] rfl (by decide)

/-! ## Claim C10: `at_volume` -/

/-- C10: `at_volume(volume)` works on every sample — locked or not —
because it amplifies a fresh unlocked copy; the result keeps the width,
rate and channel count, is unlocked, and its frames are the original
frames passed through `audioop.mul(., width, volume)`, while the original
sample is untouched (the operation never writes to `self`). -/
theorem at_volume_spec (s : Sample) (volume : ℚ)
    (hw : 0 < s.samplewidth) (hd : s.samplewidth ∣ s.frames.length) :
    ∃ s', s.at_volume volume = .ok s' ∧
      s'.locked = false ∧
      s'.samplewidth = s.samplewidth ∧ s'.samplerate = s.samplerate ∧
      s'.nchannels = s.nchannels ∧
      audioop_mul s.frames s.samplewidth volume = .ok s'.frames ∧
      ∀ vs, sampleValues s.samplewidth s.frames = some vs →
        sampleValues s.samplewidth s'.frames =
          some (vs.map fun (v : ℤ) => fbound s.samplewidth ((v : ℚ) * volume)) := by
  unfold Sample.at_volume Sample.amplify Sample.copy
  rw [if_neg Bool.false_ne_true]
  unfold audioop_mul
  rw [sampleValues_some_of hw hd]
  dsimp only
  refine ⟨_, rfl, rfl, rfl, rfl, rfl, ?_, ?_⟩
  · dsimp only
  · intro vs hvs
    have hveq := Option.some.inj hvs
    dsimp only
    rw [sampleValues_bytesOfValues hw (by
      intro x hx
      obtain ⟨v, -, rfl⟩ := List.mem_map.mp hx
      exact fbound_range _ _), hveq]

/-- C10 witness: the `at_volume` theorem applied at a concrete locked
sample. -/
theorem at_volume_spec_witness :
    ∃ s', (lockedDemo.at_volume (1 / 2)) = .ok s' ∧
      s'.locked = false ∧
      s'.samplewidth = lockedDemo.samplewidth ∧ s'.samplerate = lockedDemo.samplerate ∧
      s'.nchannels = lockedDemo.nchannels ∧
      audioop_mul lockedDemo.frames lockedDemo.samplewidth (1 / 2) = .ok s'.frames ∧
      ∀ vs, sampleValues lockedDemo.samplewidth lockedDemo.frames = some vs →
        sampleValues lockedDemo.samplewidth s'.frames =
          some (vs.map fun (v : ℤ) => fbound lockedDemo.samplewidth ((v : ℚ) * (1 / 2))) :=
  at_volume_spec lockedDemo (1 / 2) (by decide) (by decide)

/-! ## Claim C9: the buffer-length invariant across the operations -/

theorem samePlace_inv {s s' : Sample} (h : samePlace s s') (hi : sampleInvariant s) :
    sampleInvariant s' := by
  obtain ⟨hw, -, hn, -, hlen⟩ := h
  unfold sampleInvariant at hi ⊢
  rw [hw, hn, hlen]
  exact hi

theorem mix_pad_dvd {k : ℕ} {f1 f2 : List ℕ} {pad : Bool} {w : ℕ} {bs : List ℕ}
    (h1 : k ∣ f1.length) (h2 : k ∣ f2.length)
    (hbs : audioop_add
      (if pad = true then
        (if f1.length < f2.length then (f1 ++ List.replicate (f2.length - f1.length) 0, f2)
         else if f2.length < f1.length then (f1, f2 ++ List.replicate (f1.length - f2.length) 0)
         else (f1, f2))
       else (f1, f2)).1
      (if pad = true then
        (if f1.length < f2.length then (f1 ++ List.replicate (f2.length - f1.length) 0, f2)
         else if f2.length < f1.length then (f1, f2 ++ List.replicate (f1.length - f2.length) 0)
         else (f1, f2))
       else (f1, f2)).2 w = .ok bs) :
    k ∣ bs.length := by
  obtain ⟨-, hlen, -⟩ := audioop_add_ok_length hbs
  rw [hlen]
  split
  · split
    · dsimp only
      simp only [List.length_append, List.length_replicate]
      rename_i hlt
      rw [show f1.length + (f2.length - f1.length) = f2.length from by omega]
      exact h2
    · split
      · exact h1
      · exact h1
  · exact h1

theorem mix_ok_inv {s other : Sample} {osec : Option ℚ} {pad : Bool} {s' : Sample}
    (hs : sampleInvariant s) (ho : sampleInvariant other)
    (h : s.mix other osec pad = .ok s') : sampleInvariant s' := by
  unfold Sample.mix at h
  split at h
  · cases h
  · split at h
    · cases h
    · rename_i hcompat
      rw [not_not] at hcompat
      obtain ⟨hww, hrr, hnn⟩ := hcompat
      have hk2 : s.samplewidth * s.nchannels ∣ other.frames.length := by
        rw [hww, hnn]
        exact ho
      rcases osec with - | q
      · dsimp only at h
        obtain ⟨bs, hbs, rfl⟩ := except_map_ok h
        unfold sampleInvariant
        dsimp only
        exact mix_pad_dvd hs hk2 hbs
      · dsimp only at h
        obtain ⟨bs, hbs, rfl⟩ := except_map_ok h
        unfold sampleInvariant
        dsimp only
        by_cases hq : q = 0
        · rw [if_pos hq] at hbs
          exact mix_pad_dvd hs hk2 hbs
        · rw [if_neg hq] at hbs
          refine mix_pad_dvd hs (dvd_length_pyTake hk2 ?_) hbs
          rw [hww, hnn]
          exact frame_idx_dvd other q

theorem mix_grow_inv {s : Sample} {start : ℤ} {olen : ℕ}
    (hs : sampleInvariant s)
    (hstart : ((s.samplewidth * s.nchannels : ℕ) : ℤ) ∣ start)
    (holen : s.samplewidth * s.nchannels ∣ olen) :
    goodFormat s (s.mix_grow_if_needed start olen) ∧
      sampleInvariant (s.mix_grow_if_needed start olen) := by
  unfold Sample.mix_grow_if_needed
  dsimp only
  split
  · refine ⟨⟨rfl, rfl, rfl⟩, ?_⟩
    unfold sampleInvariant at hs ⊢
    simp only [List.length_append, List.length_replicate]
    refine Nat.dvd_add hs (dvd_toNat ?_)
    have h1 : ((s.samplewidth * s.nchannels : ℕ) : ℤ) ∣ (olen : ℤ) :=
      Int.natCast_dvd_natCast.mpr holen
    have h2 : ((s.samplewidth * s.nchannels : ℕ) : ℤ) ∣ (s.frames.length : ℤ) :=
      Int.natCast_dvd_natCast.mpr hs
    exact dvd_sub (dvd_add hstart h1) h2
  · exact ⟨⟨rfl, rfl, rfl⟩, hs⟩

theorem mix_at_ok_inv {s : Sample} {sec : ℚ} {other : Sample} {osec : Option ℚ} {s' : Sample}
    (hs : sampleInvariant s) (ho : sampleInvariant other)
    (h : s.mix_at sec other osec = .ok s') : sampleInvariant s' := by
  unfold Sample.mix_at at h
  split at h
  · exact mix_ok_inv hs ho h
  · split at h
    · cases h
    · split at h
      · cases h
      · rename_i hcompat
        rw [not_not] at hcompat
        obtain ⟨hww, hrr, hnn⟩ := hcompat
        have hk2 : s.samplewidth * s.nchannels ∣ other.frames.length := by
          rw [hww, hnn]
          exact ho
        have hstart : ((s.samplewidth * s.nchannels : ℕ) : ℤ) ∣ s.frame_idx sec :=
          frame_idx_dvd s sec
        have hof : ∀ (F2 : List ℕ), s.samplewidth * s.nchannels ∣ F2.length →
            ∀ {bs : List ℕ},
            audioop_add
              (pySlice (s.mix_grow_if_needed (s.frame_idx sec) F2.length).frames
                (s.frame_idx sec) (s.frame_idx sec + (F2.length : ℤ)))
              F2 s.samplewidth = .ok bs →
            s.samplewidth * s.nchannels ∣
              (Sample.mix_join_frames
                (pyTake (s.mix_grow_if_needed (s.frame_idx sec) F2.length).frames
                  (s.frame_idx sec))
                bs
                (pyDrop (s.mix_grow_if_needed (s.frame_idx sec) F2.length).frames
                  (s.frame_idx sec + (F2.length : ℤ)))).length := by
          intro F2 hF2 bs hbs
          obtain ⟨⟨hgw, hgr, hgn⟩, hginv⟩ := mix_grow_inv hs hstart hF2
          have hginv' : s.samplewidth * s.nchannels ∣
              (s.mix_grow_if_needed (s.frame_idx sec) F2.length).frames.length := by
            unfold sampleInvariant at hginv
            rw [hgw, hgn] at hginv
            exact hginv
          have hend : ((s.samplewidth * s.nchannels : ℕ) : ℤ) ∣
              s.frame_idx sec + (F2.length : ℤ) :=
            dvd_add hstart (Int.natCast_dvd_natCast.mpr hF2)
          obtain ⟨-, hmlen, -⟩ := audioop_add_ok_length hbs
          unfold Sample.mix_join_frames
          simp only [List.length_append]
          refine Nat.dvd_add (Nat.dvd_add ?_ ?_) ?_
          · rw [length_pyTake]
            exact dvd_pyIndex hginv' hstart
          · rw [hmlen]
            exact dvd_length_pySlice hginv' hstart hend
          · exact dvd_length_pyDrop hginv' hend
        rcases osec with - | q
        · dsimp only at h
          unfold Sample.mix_split_frames at h
          dsimp only at h
          obtain ⟨mixed, hmx, rfl⟩ := except_map_ok h
          obtain ⟨⟨hgw, -, hgn⟩, -⟩ := mix_grow_inv hs hstart hk2
          unfold sampleInvariant
          dsimp only
          rw [hgw, hgn]
          exact hof other.frames hk2 hmx
        · dsimp only at h
          unfold Sample.mix_split_frames at h
          dsimp only at h
          by_cases hq : q = 0
          · rw [if_pos hq] at h
            obtain ⟨mixed, hmx, rfl⟩ := except_map_ok h
            obtain ⟨⟨hgw, -, hgn⟩, -⟩ := mix_grow_inv hs hstart hk2
            unfold sampleInvariant
            dsimp only
            rw [hgw, hgn]
            exact hof other.frames hk2 hmx
          · rw [if_neg hq] at h
            have hq2 : s.samplewidth * s.nchannels ∣
                (pyTake other.frames (other.frame_idx q)).length := by
              refine dvd_length_pyTake hk2 ?_
              rw [hww, hnn]
              exact frame_idx_dvd other q
            obtain ⟨mixed, hmx, rfl⟩ := except_map_ok h
            obtain ⟨⟨hgw, -, hgn⟩, -⟩ := mix_grow_inv hs hstart hq2
            unfold sampleInvariant
            dsimp only
            rw [hgw, hgn]
            exact hof _ hq2 hmx

theorem echoLoop_inv {delay decay : ℚ} : ∀ {n : ℕ} {s e : Sample} {len amp : ℚ} {s' : Sample},
    sampleInvariant s → sampleInvariant e →
    Sample.echoLoop delay decay n s e len amp = .ok s' → sampleInvariant s' := by
  intro n
  induction n with
  | zero =>
    intro s e len amp s' hs he h
    cases h
    exact hs
  | succ n ih =>
    intro s e len amp s' hs he h
    unfold Sample.echoLoop at h
    split at h
    · cases h
      exact hs
    · obtain ⟨e2, he2, h2⟩ := except_bind_ok h
      obtain ⟨s2, hs2, h3⟩ := except_bind_ok h2
      have he2i : sampleInvariant e2 :=
        samePlace_inv (amplify_ok_samePlace he2) he
      have hs2i : sampleInvariant s2 := mix_at_ok_inv hs he2i hs2
      exact ih hs2i he2i h3

theorem echo_ok_inv {s : Sample} {length : ℚ} {amount : ℕ} {d dc : ℚ} {s' : Sample}
    (hs : sampleInvariant s) (h : s.echo length amount d dc = .ok s') :
    sampleInvariant s' := by
  unfold Sample.echo at h
  split at h
  · cases h
  · split at h
    · dsimp only at h
      refine echoLoop_inv hs ?_ h
      unfold sampleInvariant
      dsimp only
      exact dvd_length_pyDrop hs (frame_idx_dvd s _)
    · cases h
      exact hs

theorem mono_ok_inv {s : Sample} {lf rf : ℚ} {s' : Sample}
    (hs : sampleInvariant s) (h : s.mono lf rf = .ok s') : sampleInvariant s' := by
  unfold Sample.mono at h
  split at h
  · cases h
  · split at h
    · cases h
      exact hs
    · split at h
      · rename_i hn2
        obtain ⟨bs, hbs, rfl⟩ := except_map_ok h
        obtain ⟨hlen, -⟩ := audioop_tomono_ok_length hbs
        unfold sampleInvariant at hs ⊢
        dsimp only
        rw [hlen, mul_one]
        rw [hn2] at hs
        obtain ⟨c, hc⟩ := hs
        rw [hc, show s.samplewidth * 2 * c = s.samplewidth * c * 2 from by ring,
          Nat.mul_div_cancel _ (by norm_num)]
        exact ⟨c, rfl⟩
      · cases h

theorem left_ok_inv {s : Sample} {s' : Sample}
    (hs : sampleInvariant s) (h : s.left = .ok s') : sampleInvariant s' := by
  unfold Sample.left at h
  split at h
  · cases h
  · split at h
    · cases h
    · exact mono_ok_inv hs h

theorem right_ok_inv {s : Sample} {s' : Sample}
    (hs : sampleInvariant s) (h : s.right = .ok s') : sampleInvariant s' := by
  unfold Sample.right at h
  split at h
  · cases h
  · split at h
    · cases h
    · exact mono_ok_inv hs h

theorem stereoFromMono_ok_inv {s : Sample} {lf rf : ℚ} {s' : Sample}
    (hn : s.nchannels = 1) (hs : sampleInvariant s)
    (h : s.stereoFromMono lf rf = .ok s') : sampleInvariant s' := by
  unfold Sample.stereoFromMono at h
  obtain ⟨bs, hbs, rfl⟩ := except_map_ok h
  obtain ⟨hlen, -⟩ := audioop_tostereo_ok_length hbs
  unfold sampleInvariant at hs ⊢
  dsimp only
  rw [hlen]
  rw [hn, mul_one] at hs
  obtain ⟨c, hc⟩ := hs
  exact ⟨c, by rw [hc]; ring⟩

theorem stereo_mix_ok_inv {s other : Sample} {oc : Char} {f mixAt : ℚ}
    {osec : Option ℚ} {s' : Sample}
    (hs : sampleInvariant s) (ho : sampleInvariant other)
    (h : s.stereo_mix other oc f mixAt osec = .ok s') : sampleInvariant s' := by
  unfold Sample.stereo_mix at h
  split at h
  · cases h
  · split at h
    · cases h
    · rename_i hassert2
      rw [not_not] at hassert2
      obtain ⟨hon, -, -⟩ := hassert2
      split at h
      · cases h
      · obtain ⟨sA, hsA, h2⟩ := except_bind_ok h
        obtain ⟨oB, hoB, h3⟩ := except_bind_ok h2
        have hsAi : sampleInvariant sA := by
          split at hsA
          · split at hsA
            · exact stereoFromMono_ok_inv (by assumption) hs hsA
            · exact stereoFromMono_ok_inv (by assumption) hs hsA
          · cases hsA
            exact hs
        have hoBi : sampleInvariant oB := by
          split at hoB
          · exact stereoFromMono_ok_inv (show (other.copy).nchannels = 1 from hon) ho hoB
          · exact stereoFromMono_ok_inv (show (other.copy).nchannels = 1 from hon) ho hoB
        exact mix_at_ok_inv hsAi hoBi h3

theorem stereo_ok_inv {s : Sample} {lf rf : ℚ} {s' : Sample}
    (hs : sampleInvariant s) (h : s.stereo lf rf = .ok s') : sampleInvariant s' := by
  unfold Sample.stereo at h
  split at h
  · cases h
  · split at h
    · obtain ⟨r, hr, h2⟩ := except_bind_ok h
      obtain ⟨l, hl, h3⟩ := except_bind_ok h2
      obtain ⟨l2, hl2, h4⟩ := except_bind_ok h3
      have hri : sampleInvariant r := right_ok_inv (show sampleInvariant s.copy from hs) hr
      have hli : sampleInvariant l := left_ok_inv hs hl
      have hl2i : sampleInvariant l2 := samePlace_inv (amplify_ok_samePlace hl2) hli
      exact stereo_mix_ok_inv hl2i hri h4
    · split at h
      · exact stereoFromMono_ok_inv (by assumption) hs h
      · cases h

theorem make_32bit_ok_inv {s : Sample} {sc : Bool} {s' : Sample}
    (hs : sampleInvariant s) (h : s.make_32bit sc = .ok s') : sampleInvariant s' := by
  unfold Sample.make_32bit Sample.get_32bit_frames at h
  unfold sampleInvariant at hs
  split at h
  · cases h
  · obtain ⟨fr, hfr, rfl⟩ := except_map_ok h
    unfold sampleInvariant
    dsimp only
    split at hfr
    · rename_i h4
      cases hfr
      rw [h4] at hs
      exact hs
    · obtain ⟨fr0, hfr0, h2⟩ := except_bind_ok hfr
      obtain ⟨hlen0, -⟩ := audioop_lin2lin_ok_length hfr0
      have hfr0d : 4 * s.nchannels ∣ fr0.length := by
        rw [hlen0]
        rcases Nat.eq_zero_or_pos s.samplewidth with hw0 | hwpos
        · rw [hw0, zero_mul] at hs
          rw [Nat.eq_zero_of_zero_dvd hs, hw0, Nat.div_zero, Nat.mul_zero]
          exact dvd_zero _
        · obtain ⟨c, hc⟩ := hs
          rw [hc, show s.samplewidth * s.nchannels * c = s.nchannels * c * s.samplewidth
              from by ring, Nat.mul_div_cancel _ hwpos]
          exact ⟨c, by ring⟩
      split at h2
      · obtain ⟨hmlen, -⟩ := audioop_mul_ok_length h2
        rw [hmlen]
        exact hfr0d
      · cases h2
        exact hfr0d

theorem make_16bit_ok_inv {s : Sample} {mx : Bool} {s' : Sample}
    (hs : sampleInvariant s) (h : s.make_16bit mx = .ok s') : sampleInvariant s' := by
  unfold Sample.make_16bit at h
  split at h
  · cases h
  · split at h
    · cases h
    · dsimp only at h
      obtain ⟨sM, hsM, h2⟩ := except_bind_ok h
      have hsMi : sampleInvariant sM := by
        split at hsM
        · exact samePlace_inv (amplify_max_ok_samePlace hsM) hs
        · cases hsM
          exact hs
      split at h2
      · obtain ⟨bs, hbs, rfl⟩ := except_map_ok h2
        obtain ⟨hlen, -⟩ := audioop_lin2lin_ok_length hbs
        unfold sampleInvariant at hsMi ⊢
        dsimp only
        rw [hlen]
        rcases Nat.eq_zero_or_pos sM.samplewidth with hw0 | hwpos
        · rw [hw0, zero_mul] at hsMi
          rw [Nat.eq_zero_of_zero_dvd hsMi, hw0, Nat.div_zero, Nat.mul_zero]
          exact dvd_zero _
        · obtain ⟨c, hc⟩ := hsMi
          rw [hc, show sM.samplewidth * sM.nchannels * c = sM.nchannels * c * sM.samplewidth
              from by ring, Nat.mul_div_cancel _ hwpos]
          exact ⟨c, by ring⟩
      · cases h2
        exact hsMi

theorem delay_ok_inv {s : Sample} {sec : ℚ} {keep : Bool} {s' : Sample}
    (hs : sampleInvariant s) (h : s.delay sec keep = .ok s') : sampleInvariant s' := by
  unfold Sample.delay at h
  split at h
  · cases h
  · split at h
    · split at h
      · dsimp only at h
        obtain ⟨s2, hs2, h2⟩ := except_bind_ok h
        obtain ⟨⟨hgw, hgr, hgn⟩, -, hlen2, hinv2⟩ := add_silence_ok hs2
        cases h2
        unfold sampleInvariant
        dsimp only
        rw [List.length_take, min_eq_left (by omega)]
        rw [hgw, hgn]
        exact hs
      · exact (add_silence_ok h).2.2.2 hs
    · split at h
      · split at h
        · dsimp only at h
          obtain ⟨s2, hs2, h2⟩ := except_bind_ok h
          obtain ⟨⟨hgw, hgr, hgn⟩, -, hlen2, hinv2⟩ := add_silence_ok hs2
          cases h2
          unfold sampleInvariant
          dsimp only
          rw [List.length_drop,
            show s2.frames.length - (s2.frames.length - s.frames.length) =
              s.frames.length from by omega,
            hgw, hgn]
          exact hs
        · cases h
          exact dvd_length_pyDrop hs (frame_idx_dvd s _)
      · cases h
        exact hs

/-- C9 (amended): the buffer-length invariant — `len(frames)` is an exact
multiple of `samplewidth * nchannels` — is preserved by every transform in
the claim's list (mix, mix_at, clip, split, delay, add_silence, echo, the
fades, the channel conversions and the width conversions) whenever their
inputs satisfy it; construction through `from_raw_frames`, however, does
NOT establish it (see the counterexample). -/
theorem buffer_length_invariant :
    (∀ (s other : Sample) (osec : Option ℚ) (pad : Bool) (s' : Sample),
      sampleInvariant s → sampleInvariant other →
      Sample.mix s other osec pad = .ok s' → sampleInvariant s') ∧
    (∀ (s : Sample) (sec : ℚ) (other : Sample) (osec : Option ℚ) (s' : Sample),
      sampleInvariant s → sampleInvariant other →
      Sample.mix_at s sec other osec = .ok s' → sampleInvariant s') ∧
    (∀ (s : Sample) (a b : ℚ) (s' : Sample),
      sampleInvariant s → Sample.clip s a b = .ok s' → sampleInvariant s') ∧
    (∀ (s : Sample) (sec : ℚ) (p : Sample × Sample),
      sampleInvariant s → Sample.split s sec = .ok p →
      sampleInvariant p.1 ∧ sampleInvariant p.2) ∧
    (∀ (s : Sample) (sec : ℚ) (keep : Bool) (s' : Sample),
      sampleInvariant s → Sample.delay s sec keep = .ok s' → sampleInvariant s') ∧
    (∀ (s : Sample) (sec : ℚ) (at_start : Bool) (s' : Sample),
      sampleInvariant s → Sample.add_silence s sec at_start = .ok s' → sampleInvariant s') ∧
    (∀ (s : Sample) (len : ℚ) (amount : ℕ) (d dc : ℚ) (s' : Sample),
      sampleInvariant s → Sample.echo s len amount d dc = .ok s' → sampleInvariant s') ∧
    (∀ (s : Sample) (T v : ℚ) (s' : Sample),
      sampleInvariant s → Sample.fadein s T v = .ok s' → sampleInvariant s') ∧
    (∀ (s : Sample) (T v : ℚ) (s' : Sample),
      sampleInvariant s → Sample.fadeout s T v = .ok s' → sampleInvariant s') ∧
    (∀ (s : Sample) (lf rf : ℚ) (s' : Sample),
      sampleInvariant s → Sample.mono s lf rf = .ok s' → sampleInvariant s') ∧
    (∀ (s s' : Sample), sampleInvariant s → Sample.left s = .ok s' → sampleInvariant s') ∧
    (∀ (s s' : Sample), sampleInvariant s → Sample.right s = .ok s' → sampleInvariant s') ∧
    (∀ (s : Sample) (lf rf : ℚ) (s' : Sample),
      sampleInvariant s → Sample.stereo s lf rf = .ok s' → sampleInvariant s') ∧
    (∀ (s other : Sample) (oc : Char) (f ma : ℚ) (osec : Option ℚ) (s' : Sample),
      sampleInvariant s → sampleInvariant other →
      Sample.stereo_mix s other oc f ma osec = .ok s' → sampleInvariant s') ∧
    (∀ (s : Sample) (sc : Bool) (s' : Sample),
      sampleInvariant s → Sample.make_32bit s sc = .ok s' → sampleInvariant s') ∧
    (∀ (s : Sample) (mx : Bool) (s' : Sample),
      sampleInvariant s → Sample.make_16bit s mx = .ok s' → sampleInvariant s') := by
  refine ⟨?_, ?_, ?_, ?_, ?_, ?_, ?_, ?_, ?_, ?_, ?_, ?_, ?_, ?_, ?_, ?_⟩
  · exact fun s other osec pad s' hs ho h => mix_ok_inv hs ho h
  · exact fun s sec other osec s' hs ho h => mix_at_ok_inv hs ho h
  · exact fun s a b s' hs h => clip_ok_inv hs h
  · exact fun s sec p hs h => (split_ok h).2.2.2.2.2.2.2 hs
  · exact fun s sec keep s' hs h => delay_ok_inv hs h
  · exact fun s sec at_start s' hs h => (add_silence_ok h).2.2.2 hs
  · exact fun s len amount d dc s' hs h => echo_ok_inv hs h
  · exact fun s T v s' hs h => samePlace_inv (fadein_ok_samePlace hs h) hs
  · exact fun s T v s' hs h => samePlace_inv (fadeout_ok_samePlace hs h) hs
  · exact fun s lf rf s' hs h => mono_ok_inv hs h
  · exact fun s s' hs h => left_ok_inv hs h
  · exact fun s s' hs h => right_ok_inv hs h
  · exact fun s lf rf s' hs h => stereo_ok_inv hs h
  · exact fun s other oc f ma osec s' hs ho h => stereo_mix_ok_inv hs ho h
  · exact fun s sc s' hs h => make_32bit_ok_inv hs h
  · exact fun s mx s' hs h => make_16bit_ok_inv hs h

/-- The result of `mixDemo1.make_32bit true`: the 16-bit value 10 widened
to 32 bits. -/
def m32Demo : Sample :=
  { frames := [0, 0, 10, 0], samplewidth := 4, samplerate := 4,
    nchannels := 1, locked := false }

/-- C9 witness: the invariant theorem's `make_32bit` component applied at
a concrete 16-bit sample. -/
theorem buffer_length_invariant_witness : sampleInvariant m32Demo :=
  buffer_length_invariant.2.2.2.2.2.2.2.2.2.2.2.2.2.2.1 mixDemo1 true m32Demo
    (by unfold sampleInvariant; decide) (by decide)

/-- A one-byte 16-bit sample accepted by `from_raw_frames`. -/
def invCex : Sample :=
  { frames := [0], samplewidth := 2, samplerate := 44100,
    nchannels := 1, locked := false }

/-- C9 counterexample: `from_raw_frames` asserts on channel count, width
and rate but never checks the byte length, so construction — one of the
operations the claim covers — can produce a sample whose frame buffer
length 1 is not a multiple of `samplewidth * nchannels = 2`. -/
theorem from_raw_frames_breaks_invariant :
    Sample.from_raw_frames [0] 2 44100 1 = .ok invCex ∧ ¬ sampleInvariant invCex := by
  constructor
  · decide
  · unfold sampleInvariant
    decide

/-! ## Claim C5: `LevelMeter.process` on silent fragments -/

theorem audioop_max_silent {w : ℕ} {bs : List ℕ} (hw : 0 < w) (hd : w ∣ bs.length)
    (hz : ∀ b ∈ bs, b = 0) : audioop_max bs w = .ok 0 := by
  unfold audioop_max
  rw [sampleValues_some_of hw hd]
  dsimp only
  rw [sampleValuesGo_silent hw _ hz, listAbsMax_replicate_zero]

theorem foldr_sq_replicate_zero (n : ℕ) :
    (List.replicate n (0 : ℤ)).foldr (fun v a => (v * v).toNat + a) 0 = 0 := by
  induction n with
  | zero => rfl
  | succ n ih => simp [List.replicate_succ, ih]

theorem audioop_rms_silent {w : ℕ} {bs : List ℕ} (hw : 0 < w) (hd : w ∣ bs.length)
    (hz : ∀ b ∈ bs, b = 0) : audioop_rms bs w = .ok 0 := by
  unfold audioop_rms
  rw [sampleValues_some_of hw hd]
  dsimp only
  rw [sampleValuesGo_silent hw _ hz, foldr_sq_replicate_zero, Nat.zero_div, Nat.sqrt_zero]
  rfl

/-- The dB value of the quantization floor `(0+1)/2^(8w-1)` is at or
below the -60 dB cutoff for every width of at least 2 bytes. -/
theorem silent_db_le {w : ℕ} (hw2 : 2 ≤ w) :
    20 * Real.logb 10 ((((0 : ℤ) : ℝ) + 1) / 2 ^ (8 * w - 1)) ≤ -60 := by
  have h0 : (((0 : ℤ) : ℝ) + 1) / 2 ^ (8 * w - 1) = ((2 : ℝ) ^ (8 * w - 1))⁻¹ := by
    norm_num
  rw [h0, Real.logb_inv]
  have h1 : (1000 : ℝ) ≤ 2 ^ (8 * w - 1) := by
    calc (1000 : ℝ) ≤ 2 ^ 15 := by norm_num
    _ ≤ 2 ^ (8 * w - 1) := pow_le_pow_right₀ (by norm_num) (by omega)
  have h3 : Real.logb 10 1000 = 3 := by
    rw [show (1000 : ℝ) = 10 ^ (3 : ℕ) by norm_num, Real.logb_pow, Real.logb_self_eq_one] <;>
      norm_num
  have h2 : (3 : ℝ) ≤ Real.logb 10 (2 ^ (8 * w - 1)) := by
    calc (3 : ℝ) = Real.logb 10 1000 := h3.symm
    _ ≤ _ := Real.logb_le_logb_of_le (by norm_num) (by norm_num) h1
  linarith

theorem fbound_zero (w : ℕ) : fbound w 0 = 0 := by
  have h := fbound_intCast (minval_nonpos w) (maxval_nonneg w)
  simpa using h

/-- The `tomono` channel-extraction map sends silent frames to zeros. -/
theorem tomono_map_silent {w : ℕ} (lf rf : ℚ) :
    ∀ (k : ℕ) (vs : List ℤ), (∀ v ∈ vs, v = 0) →
    (framesOfValuesGo 2 k vs).map (fun (fr : List ℤ) =>
      fbound w ((fr.headD 0 : ℚ) * lf + ((fr.getD 1 0 : ℤ) : ℚ) * rf)) =
      List.replicate k (0 : ℤ) := by
  intro k
  induction k with
  | zero =>
    intro vs hz
    rfl
  | succ k ih =>
    intro vs hz
    rw [framesOfValuesGo, List.map_cons,
      ih (vs.drop 2) (fun v hv => hz v (List.mem_of_mem_drop hv)), List.replicate_succ]
    congr 1
    have h1 : (vs.take 2).headD 0 = 0 := by
      cases hv : vs.take 2 with
      | nil => rfl
      | cons a t =>
        have ha : a ∈ vs.take 2 := by
          rw [hv]
          exact List.mem_cons_self a t
        rw [List.headD_cons]
        exact hz a (List.mem_of_mem_take ha)
    have h2 : (vs.take 2).getD 1 0 = 0 := by
      cases htk : vs.take 2 with
      | nil => rfl
      | cons a t =>
        cases t with
        | nil => rfl
        | cons b t2 =>
          have hb : b ∈ vs.take 2 := by
            rw [htk]
            exact List.mem_cons_of_mem a (List.mem_cons_self b t2)
          rw [List.getD_cons_succ, List.getD_cons_zero]
          exact hz b (List.mem_of_mem_take hb)
    rw [h1, h2]
    simp only [Int.cast_zero, zero_mul, add_zero]
    exact fbound_zero w

/-- `audioop.tomono` of a silent fragment is the silent fragment of half
the frame count, for any channel factors. -/
theorem audioop_tomono_silent {w : ℕ} {bs : List ℕ} (hw : 0 < w) (hd : w ∣ bs.length)
    (h2 : 2 ∣ bs.length / w) (hz : ∀ b ∈ bs, b = 0) (lf rf : ℚ) :
    audioop_tomono bs w lf rf =
      .ok (bytesOfValues w (List.replicate (bs.length / w / 2) 0)) := by
  unfold audioop_tomono
  rw [sampleValues_some_of hw hd]
  dsimp only
  rw [sampleValuesGo_silent hw _ hz, if_pos (by rw [List.length_replicate]; exact h2)]
  rw [List.length_replicate,
    tomono_map_silent lf rf (bs.length / w / 2) _ (fun v hv => List.eq_of_mem_replicate hv)]

theorem bytesOfValues_replicate_zero (w : ℕ) :
    ∀ (m : ℕ), ∀ b ∈ bytesOfValues w (List.replicate m (0 : ℤ)), b = 0 := by
  intro m
  induction m with
  | zero =>
    intro b hb
    simp [bytesOfValues] at hb
  | succ m ih =>
    intro b hb
    rw [List.replicate_succ,
      show bytesOfValues w ((0 : ℤ) :: List.replicate m (0 : ℤ)) =
        encodeSample w 0 ++ bytesOfValues w (List.replicate m (0 : ℤ)) from rfl] at hb
    rcases List.mem_append.mp hb with h | h
    · rw [encodeSample_zero] at h
      exact List.eq_of_mem_replicate h
    · exact ih b h

/-- `__db_level` of a silent sample of width at least 2 — mono or
stereo — is exactly the -60 dB cutoff on both channels, in both peak and
RMS mode; the stereo path goes through `audioop.tomono` per channel. -/
theorem db_level_silent {s : Sample} (hw2 : 2 ≤ s.samplewidth)
    (hnch : s.nchannels = 1 ∨ s.nchannels = 2)
    (hinv : s.samplewidth * s.nchannels ∣ s.frames.length)
    (hz : ∀ b ∈ s.frames, b = 0) (mode : Bool) :
    s.db_level mode = .ok (-60, -60) := by
  have hwpos : 0 < s.samplewidth := by omega
  have hle := silent_db_le hw2
  have hd : s.samplewidth ∣ s.frames.length := dvd_trans (dvd_mul_right _ _) hinv
  unfold Sample.db_level
  rcases hnch with h1 | h2
  · rw [if_pos h1]
    cases mode with
    | false =>
      rw [if_neg Bool.false_ne_true, audioop_max_silent hwpos hd hz]
      dsimp only [Except.map]
      rw [max_eq_right hle]
    | true =>
      rw [if_pos rfl, audioop_rms_silent hwpos hd hz]
      dsimp only [Except.map]
      rw [max_eq_right hle]
  · rw [if_neg (by omega)]
    have h2d : 2 ∣ s.frames.length / s.samplewidth := by
      rw [h2] at hinv
      obtain ⟨c, hc⟩ := hinv
      refine ⟨c, ?_⟩
      rw [hc, show s.samplewidth * 2 * c = 2 * c * s.samplewidth from by ring,
        Nat.mul_div_cancel _ hwpos]
    have hsil := bytesOfValues_replicate_zero s.samplewidth
      (s.frames.length / s.samplewidth / 2)
    have hddd : s.samplewidth ∣ (bytesOfValues s.samplewidth
        (List.replicate (s.frames.length / s.samplewidth / 2) 0)).length := by
      rw [length_bytesOfValues]
      exact dvd_mul_right _ _
    rw [audioop_tomono_silent hwpos hd h2d hz 1 0, bindOk,
      audioop_tomono_silent hwpos hd h2d hz 0 1, bindOk]
    cases mode with
    | false =>
      simp only [Bool.false_eq_true, if_false, audioop_max_silent hwpos hddd hsil,
        bindOk, max_eq_right hle]
    | true =>
      simp only [eq_self_iff_true, if_true, audioop_rms_silent hwpos hddd hsil,
        bindOk, max_eq_right hle]

/-- C5: processing a silent fragment of a supported width — mono or
stereo — with the spec section-3 buffer invariant: the
returned tuple is `(left, peak_left, right, peak_right)`; both returned
instantaneous levels equal the meter's `lowest` floor exactly; each held
peak decays by exactly `duration * 30` dB once more than 0.4 seconds have
passed since its last hold (and is left alone otherwise), floored at
`lowest`; the internal clock advances by the fragment's duration. -/
theorem process_silent (m : LevelMeter) (s : Sample)
    (hw2 : 2 ≤ s.samplewidth) (hnch : s.nchannels = 1 ∨ s.nchannels = 2)
    (hinv : s.samplewidth * s.nchannels ∣ s.frames.length)
    (hz : ∀ b ∈ s.frames, b = 0)
    (hlow1 : -60 ≤ m.lowest) :
    ∃ out m', m.process s = .ok (out, m') ∧
      out = (m.lowest, m'.peak_left, m.lowest, m'.peak_right) ∧
      m'.level_left = m.lowest ∧ m'.level_right = m.lowest ∧
      m'.peak_left = max m.lowest
        (if m.time + (s.duration : ℝ) - m.peak_left_hold > 0.4
          then m.peak_left - (s.duration : ℝ) * 30 else m.peak_left) ∧
      m'.peak_right = max m.lowest
        (if m.time + (s.duration : ℝ) - m.peak_right_hold > 0.4
          then m.peak_right - (s.duration : ℝ) * 30 else m.peak_right) ∧
      m'.time = m.time + (s.duration : ℝ) := by
  unfold LevelMeter.process
  rw [db_level_silent hw2 hnch hinv hz m.rms]
  dsimp only [Except.map]
  rw [max_eq_right hlow1]
  refine ⟨_, _, rfl, ?_, ?_, ?_, ?_, ?_, ?_⟩
  · rfl
  · rfl
  · rfl
  · dsimp only
    split
    · split
      · rename_i h
        exact (max_eq_left h).symm
      · rename_i h
        exact (max_eq_right (le_of_not_le h)).symm
    · split
      · rename_i h
        exact (max_eq_left h).symm
      · rename_i h
        exact (max_eq_right (le_of_not_le h)).symm
  · dsimp only
    split
    · split
      · rename_i h
        exact (max_eq_left h).symm
      · rename_i h
        exact (max_eq_right (le_of_not_le h)).symm
    · split
      · rename_i h
        exact (max_eq_left h).symm
      · rename_i h
        exact (max_eq_right (le_of_not_le h)).symm
  · rfl

/-- A silent 16-bit stereo fragment (two zero stereo frames at 4 Hz) —
the normalized channel count of the library. -/
def silentDemo : Sample :=
  { frames := [0, 0, 0, 0, 0, 0, 0, 0], samplewidth := 2, samplerate := 4,
    nchannels := 2, locked := false }

/-- A meter state as produced by `LevelMeter.init false (-60)` after some
peak activity. -/
noncomputable def meterDemo : LevelMeter :=
  { rms := false, lowest := -60, peak_left := -30, peak_right := -30,
    peak_left_hold := 0, peak_right_hold := 0, level_left := 0, level_right := 0,
    time := 0 }

/-- C5 witness: the silent-processing theorem applied at a concrete meter
state and a concrete silent stereo fragment. -/
theorem process_silent_witness :
    ∃ out m', meterDemo.process silentDemo = .ok (out, m') ∧
      out = (meterDemo.lowest, m'.peak_left, meterDemo.lowest, m'.peak_right) ∧
      m'.level_left = meterDemo.lowest ∧ m'.level_right = meterDemo.lowest ∧
      m'.peak_left = max meterDemo.lowest
        (if meterDemo.time + (silentDemo.duration : ℝ) - meterDemo.peak_left_hold > 0.4
          then meterDemo.peak_left - (silentDemo.duration : ℝ) * 30 else meterDemo.peak_left) ∧
      m'.peak_right = max meterDemo.lowest
        (if meterDemo.time + (silentDemo.duration : ℝ) - meterDemo.peak_right_hold > 0.4
          then meterDemo.peak_right - (silentDemo.duration : ℝ) * 30
          else meterDemo.peak_right) ∧
      m'.time = meterDemo.time + (silentDemo.duration : ℝ) :=
  process_silent meterDemo silentDemo (by decide) (Or.inr rfl) (by decide) (by decide)
    (by norm_num [meterDemo])
